import Mathlib

/-!
Verification of the import-dependency analysis engine of khan-linter
(`contrib/import_lint.py`), via a shallow embedding.

Conventions of the embedding:
* A Python token (as produced by `lintutil.python_tokens`, which elides
  NL and COMMENT tokens) is a `Tok`: its text, whether it is a NEWLINE
  token, its start position, and the raw source line it appears on.
* Python dicts used as caches become association lists; `frozenset`s
  become deduplicated lists or `Finset String`.
* Python string primitives (`startswith`, `lstrip`, `split`, `in`, `<`,
  ...) are re-implemented over the character list of the string, with
  Python's semantics (lexicographic comparison by code point, etc.).
* Python exceptions (`KeyError`, `AssertionError`) of the parser are the
  `.error` case of `Except Unit`.
* Unbounded recursion driven by mutable caches or loop indices is
  modelled with an explicit fuel argument, made large enough by callers;
  exhaustion surfaces as `none` or as a truncated run.
-/

/-- Build a string back from its characters. -/
def ofChars (l : List Char) : String := String.mk l

/-- Python falsiness of a string (`''`). -/
def strEmpty (s : String) : Bool := s.toList.isEmpty

/-- Python's `str.isspace()`: nonempty and all whitespace characters. -/
def pyIsSpace (s : String) : Bool :=
  !s.toList.isEmpty && s.toList.all Char.isWhitespace

/-- Python's `s.startswith(p)`. -/
def strStarts (s p : String) : Bool := p.toList.isPrefixOf s.toList

/-- Python's `s.endswith(p)`. -/
def strEnds (s p : String) : Bool := p.toList.isSuffixOf s.toList

/-- Python's `s.lstrip()` (strip leading whitespace). -/
def strLstrip (s : String) : String :=
  ofChars (s.toList.dropWhile Char.isWhitespace)

/-- Worker for splitting at a separator character. -/
def splitCAux (c : Char) : List Char → List Char → List String
  | [], acc => [ofChars acc.reverse]
  | x :: xs, acc =>
    if x = c then ofChars acc.reverse :: splitCAux c xs []
    else splitCAux c xs (x :: acc)

/-- Python's `s.split(c)` for a one-character separator. -/
def strSplitC (c : Char) (s : String) : List String := splitCAux c s.toList []

/-- Contiguous-sublist search. -/
def subSearch (pat : List Char) : List Char → Bool
  | [] => pat.isEmpty
  | c :: cs => pat.isPrefixOf (c :: cs) || subSearch pat cs

/-- Python's `pat in s` for strings. -/
def strHasSub (s pat : String) : Bool := subSearch pat.toList s.toList

/-- Python's `s.replace(a, b)` for one-character `a` and `b`. -/
def strMapC (a b : Char) (s : String) : String :=
  ofChars (s.toList.map (fun ch => if ch = a then b else ch))

/-- Python's `c in s` for a character. -/
def strHasChar (s : String) (c : Char) : Bool := s.toList.contains c

/-- Lexicographic `<` on character lists (Python string comparison). -/
def strLtL : List Char → List Char → Bool
  | [], [] => false
  | [], _ :: _ => true
  | _ :: _, [] => false
  | a :: as, b :: bs =>
    if a < b then true else if b < a then false else strLtL as bs

/-- Python's `a < b` on strings. -/
def strLtB (a b : String) : Bool := strLtL a.toList b.toList

/-- The project root the linter resolves paths against (`ka_root`). -/
def kaRoot : String := "/ka-root"

/-- `ka_root.join(p)` for a root-relative path `p`. -/
def kaRootJoin (p : String) : String := kaRoot ++ "/" ++ p

/-- `ka_root.relpath(f)` for files under the root: strip the root. -/
def kaRootRelpath (f : String) : String :=
  if strStarts f (kaRoot ++ "/") then f.drop (kaRoot.length + 1) else f

/-- Python truthiness of an optional string (`None` and `''` are falsy). -/
def pyTruthy : Option String → Bool
  | none => false
  | some s => !strEmpty s

/-- One token of `lintutil.python_tokens` output: we keep the token text,
whether its type is NEWLINE, its start line and column, and the raw line. -/
structure Tok where
  isNewline : Bool
  text : String
  lineno : Nat
  colno : Nat
  line : String
deriving Repr, DecidableEq

/-- The `ImportLine` namedtuple of `import_lint.py`. -/
structure ImportLine where
  filename : String
  lineno : Nat
  colno : Nat
  module : String
  name : String
  level : Nat
  is_toplevel : Bool
  has_comma : Bool
  has_from : Bool
  has_as : Bool
deriving Repr, DecidableEq

/-- `_add_import_line`: build an `ImportLine` from the parsed pieces.
`importPart` is passed separately because the caller asserts it is
present; `fromPart`/`asPart` may be absent. -/
def add_import_line (filename : String) (lineno colno : Nat) (isTop : Bool)
    (fromPart : Option String) (importPart : String) (asPart : Option String)
    (hasComma : Bool) : ImportLine :=
  let name := match asPart with
    | some s => if strEmpty s then importPart else s
    | none => importPart
  let levelParts : Nat × List String :=
    match fromPart with
    | some fp =>
      if strEmpty fp then (0, []) else
        let level := fp.toList.length - (fp.toList.dropWhile (· = '.')).length
        let fromName := fp.drop level
        let base := if level > 0 then
            let fparts := strSplitC '/' (kaRootRelpath filename)
            fparts.take (fparts.length - level)
          else []
        (level, if strEmpty fromName then base else base ++ [fromName])
    | none => (0, [])
  let module := String.intercalate "." (levelParts.2 ++ [importPart])
  ⟨filename, lineno, colno, module, name, levelParts.1, isTop, hasComma,
    pyTruthy fromPart, pyTruthy asPart⟩

/-- The `next_field` values of the `_get_import_lines` state machine.
`end` is reached after an `as`-clause (from `import_part` it is processed
within the same token, by cascading). -/
inductive PField
  | start
  | fromF
  | importF
  | asF
  | endF
deriving Repr, DecidableEq

/-- The mutable state of the `_get_import_lines` loop: the current
`next_field`, the fields of `il_dict`, the `inside_def` flag, and the
accumulated import lines. -/
structure PSt where
  field : PField
  lineno : Nat
  colno : Nat
  isTop : Bool
  fromPart : Option String
  importPart : Option String
  asPart : Option String
  insideDef : Bool
  acc : List ImportLine
deriving Repr, DecidableEq

/-- The `start` state: open a `from`/`import` statement if this token
starts one (checking the raw line, as the source does), else skip. -/
def startStep (t : Tok) (st : PSt) : PSt :=
  if t.text = "from" ∧ strStarts (strLstrip t.line) "from" then
    { st with field := .fromF, lineno := t.lineno, colno := t.colno,
              isTop := !st.insideDef,
              fromPart := none, importPart := none, asPart := none }
  else if t.text = "import" ∧ strStarts (strLstrip t.line) "import" then
    { st with field := .importF, lineno := t.lineno, colno := t.colno,
              isTop := !st.insideDef,
              fromPart := none, importPart := none, asPart := none }
  else st

/-- The `end` state: record `has_comma`, run `_add_import_line`, reset
`il_dict` and cascade into the `start` state on the same token. -/
def endThenStart (filename : String) (t : Tok) (st : PSt) : Except Unit PSt :=
  match st.importPart with
  | none => .error ()
  | some ip =>
    let il := add_import_line filename st.lineno st.colno st.isTop
      st.fromPart ip st.asPart (t.text = ",")
    .ok (startStep t
      { st with acc := st.acc ++ [il], field := .start,
                fromPart := none, importPart := none, asPart := none })

/-- The `import_part` state. The `assert`s of the source (and the
`KeyError` on `il_dict['import_part'] += token` when the key is absent)
are the `.error` results. -/
def importStep (filename : String) (t : Tok) (st : PSt) : Except Unit PSt :=
  if t.text = "as" then
    match st.importPart with
    | none => .error ()
    | some s => if strEmpty s then .error () else .ok { st with field := .asF }
  else if t.text = "." then
    match st.importPart with
    | none => .error ()
    | some s => .ok { st with importPart := some (s ++ ".") }
  else if st.importPart = none ∨ strEnds (st.importPart.getD "") "." then
    .ok { st with importPart := some ((st.importPart.getD "") ++ t.text) }
  else
    match st.importPart with
    | none => .error ()
    | some s =>
      if strEmpty s then .error ()
      else endThenStart filename t st

/-- The `from_part` state: accumulate until `import` arrives; the source
asserts that by then `from_part` is present and truthy. -/
def fromStep (t : Tok) (st : PSt) : Except Unit PSt :=
  if t.text = "import" then
    match st.fromPart with
    | none => .error ()
    | some s =>
      if strEmpty s then .error () else .ok { st with field := .importF }
  else
    .ok { st with fromPart := some ((st.fromPart.getD "") ++ t.text) }

/-- The `inside_def` heuristic of `_get_import_lines`: a `def` token sets
the flag, an unindented non-whitespace token clears it. -/
def insideUpd (t : Tok) (st : PSt) : PSt :=
  if t.text = "def" then { st with insideDef := true }
  else if t.colno = 0 ∧ ¬ pyIsSpace t.text then { st with insideDef := false }
  else st

/-- The `next_field` dispatch of the `_get_import_lines` loop body. -/
def dispatchTok (filename : String) (t : Tok) (st : PSt) : Except Unit PSt :=
  match st.field with
  | .fromF => fromStep t st
  | .importF => importStep filename t st
  | .asF => .ok { st with asPart := some t.text, field := .endF }
  | .endF => endThenStart filename t st
  | .start => .ok (startStep t st)

/-- Process one token of `_get_import_lines`: skip parens and NEWLINE
tokens, update `inside_def`, then dispatch on `next_field`. -/
def stepTok (filename : String) (t : Tok) (st : PSt) : Except Unit PSt :=
  if t.text = "(" ∨ t.text = ")" ∨ t.isNewline then .ok st
  else dispatchTok filename t (insideUpd t st)

/-- Run the `_get_import_lines` state machine over a token list. -/
def parseAux (filename : String) : PSt → List Tok → Except Unit (List ImportLine)
  | st, [] => .ok st.acc
  | st, t :: ts =>
    match stepTok filename t st with
    | .error e => .error e
    | .ok st' => parseAux filename st' ts

/-- The initial loop state of `_get_import_lines`. -/
def initPSt : PSt := ⟨.start, 0, 0, true, none, none, none, false, []⟩

/-- `_get_import_lines` on a file's token stream (the per-file cache of
the source is observationally transparent and not modelled; the
file-not-found sentinel is handled by callers). -/
def get_import_lines (filename : String) (toks : List Tok) :
    Except Unit (List ImportLine) :=
  parseAux filename initPSt toks

/-- Shorthand for building a non-NEWLINE token. -/
def mkTok (text : String) (lineno colno : Nat) (line : String) : Tok :=
  ⟨false, text, lineno, colno, line⟩

/-- The NEWLINE token ending a logical line. -/
def nlTok (lineno colno : Nat) (line : String) : Tok :=
  ⟨true, "\n", lineno, colno, line⟩

/-- The token stream of the file `"from . import frozen_model\n"`,
as `tokenize` produces it (NL/COMMENT already elided): the four words,
the NEWLINE, and the empty ENDMARKER. -/
def frozenModelToks : List Tok :=
  [mkTok "from" 1 0 "from . import frozen_model\n",
   mkTok "." 1 5 "from . import frozen_model\n",
   mkTok "import" 1 7 "from . import frozen_model\n",
   mkTok "frozen_model" 1 14 "from . import frozen_model\n",
   nlTok 1 26 "from . import frozen_model\n",
   mkTok "" 2 0 ""]

/-- The token stream of the malformed file `"from import x\n"`. -/
def fromImportXToks : List Tok :=
  [mkTok "from" 1 0 "from import x\n",
   mkTok "import" 1 5 "from import x\n",
   mkTok "x" 1 12 "from import x\n",
   nlTok 1 13 "from import x\n",
   mkTok "" 2 0 ""]

/-- A value stored in the import trie of `lint_unused_and_missing_imports`:
an inner dict, an import's line number (leaf), or the `"USED"` marker. -/
inductive TrieV where
  | node (children : List (String × TrieV))
  | line (n : Nat)
  | used
deriving Repr

/-- Dict lookup on an association list. -/
def assocFind (k : String) (l : List (String × TrieV)) : Option TrieV :=
  (l.find? (fun p => p.1 = k)).map (·.2)

/-- Dict assignment on an association list (overwrite or append). -/
def assocUpd (k : String) (v : TrieV) (l : List (String × TrieV)) :
    List (String × TrieV) :=
  if l.any (fun p => p.1 = k) then
    l.map (fun p => if p.1 = k then (k, v) else p)
  else l ++ [(k, v)]

/-- Dict `del` on an association list. -/
def assocErase (k : String) (l : List (String × TrieV)) :
    List (String × TrieV) :=
  l.filter (fun p => p.1 ≠ k)

/-- Insert one import's name segments into the trie, walking down with
`setdefault` and storing the line number at the last segment.  (The
non-dict-on-the-path case cannot arise in the linter because imports
whose name extends another import's name were filtered out before.) -/
def trieInsert (parts : List String) (lineno : Nat)
    (root : List (String × TrieV)) : List (String × TrieV) :=
  match parts with
  | [] => root
  | [p] => assocUpd p (.line lineno) root
  | p :: rest =>
    let sub := match assocFind p root with
      | some (.node cs) => cs
      | _ => []
    assocUpd p (.node (trieInsert rest lineno sub)) root

/-- A diagnostic of the usage-trie walk, kept structured (the source
formats the dot-joined path into the message at yield time). -/
inductive UDiag where
  | missing (path : List String) (lineno : Nat)
  | nonmodule (path : List String) (lineno : Nat)
  | unused (path : List String) (lineno : Nat)
deriving Repr, DecidableEq

/-- The dotted-name path a diagnostic is about. -/
def UDiag.path : UDiag → List String
  | .missing p _ => p
  | .nonmodule p _ => p
  | .unused p _ => p

/-- Token at index `j` (callers guard the bounds as the source does). -/
def tokAt (toks : List Tok) (j : Nat) : Tok :=
  (toks.get? j).getD ⟨false, "", 0, 0, ""⟩

/-- The inner trie-traversal loop of `lint_unused_and_missing_imports`:
starting at token index `i` inside subtree `cur` (with `partsSoFar`
matched), follow alternating name/`.` tokens.  Returns the diagnostic
yielded (if any), the updated subtree, and how many extra tokens beyond
`i` the loop consumed.  The fuel argument only bounds the recursion
(each level moves two tokens forward, so `toks.length` always suffices). -/
def innerWalk (toks : List Tok) : Nat → Nat → List (String × TrieV) →
    List String → Option UDiag × List (String × TrieV) × Nat
  | 0, _, cur, _ => (none, cur, 0)
  | fuel + 1, i, cur, partsSoFar =>
    let t := (tokAt toks i).text
    match assocFind t cur with
    | none => (some (.missing (partsSoFar ++ [t]) (tokAt toks i).lineno), cur, 0)
    | some (.line _) => (none, assocUpd t .used cur, 0)
    | some .used => (none, assocUpd t .used cur, 0)
    | some (.node cs) =>
      if i + 2 ≥ toks.length ∨ (tokAt toks (i + 1)).text ≠ "." then
        (some (.nonmodule partsSoFar (tokAt toks i).lineno), cur, 0)
      else
        let r := innerWalk toks fuel (i + 2) cs (partsSoFar ++ [t])
        (r.1, assocUpd t (.node r.2.1) cur, r.2.2 + 2)

/-- The outer token loop of `lint_unused_and_missing_imports`: for each
token, skip definitions (preceded by `.`/`import`/`from`), skip tokens
not at a trie root, delete roots that look redefined as plain variables,
and otherwise run the inner traversal.  The fuel argument only bounds
the loop (the index strictly increases, so `toks.length` suffices). -/
def walkFrom (toks : List Tok) : Nat → Nat → List (String × TrieV) →
    List UDiag × List (String × TrieV)
  | 0, _, trie => ([], trie)
  | fuel + 1, i, trie =>
    if i < toks.length then
      let t := (tokAt toks i).text
      if i > 0 ∧ (tokAt toks (i - 1)).text ∈ [".", "import", "from"] then
        walkFrom toks fuel (i + 1) trie
      else if (assocFind t trie).isNone then
        walkFrom toks fuel (i + 1) trie
      else if i + 1 < toks.length ∧ (tokAt toks (i + 1)).text ≠ "." then
        walkFrom toks fuel (i + 1) (assocErase t trie)
      else
        let r := innerWalk toks (toks.length + 1) i trie []
        let rest := walkFrom toks fuel (i + r.2.2 + 1) r.2.1
        (r.1.toList ++ rest.1, rest.2)
    else ([], trie)

/-- Python `contents.splitlines(True)` as far as this linter needs it
(only membership of a marker substring in the `n`-th line is tested). -/
def pySplitLines (s : String) : List String := strSplitC '\n' s

/-- One level of `_find_unused_imports`, with the descent into child
dicts abstracted as `rec'`. -/
def unusedGo
    (rec' : List (String × TrieV) → List String → List (List String × Nat))
    (lines : List String) :
    List (String × TrieV) → List String → List (List String × Nat)
  | [], _ => []
  | (p, sub) :: rest, parts =>
    (match sub with
     | .node cs => rec' cs (parts ++ [p])
     | .used => []
     | .line n =>
       if strHasSub (lines.getD (n - 1) "") "@UnusedImport" then []
       else [(parts ++ [p], n)])
    ++ unusedGo rec' lines rest parts

/-- `_find_unused_imports`: walk the final trie and yield the path and
line number of every leaf never marked `"USED"`, unless the import's
source line carries an `@UnusedImport` annotation.  The fuel argument
only bounds the nesting depth (any bound at least the trie depth gives
the source's behaviour). -/
def find_unused_imports (lines : List String) :
    Nat → List (String × TrieV) → List String → List (List String × Nat)
  | 0, _, _ => []
  | fuel + 1, root, parts => unusedGo (find_unused_imports lines fuel) lines root parts

/-- `pyflakes_can_handle` from `lint_unused_and_missing_imports`. -/
def pyflakesCanHandle (il : ImportLine) : Bool :=
  !(strHasChar il.module '.') || il.name ≠ il.module

/-- `lint_unused_and_missing_imports` for one file: parse, filter
the import lines, build the trie, walk the token stream, then report the
unused leaves.  Diagnostics are (line number, message) pairs. -/
def lint_unused_and_missing_imports (f : String) (toks : List Tok)
    (contents : String) : Except Unit (List (Nat × String)) :=
  match get_import_lines f toks with
  | .error e => .error e
  | .ok ils0 =>
    let ils1 := ils0.filter
      (fun il => !(ils0.any (fun o => strStarts il.name (o.name ++ "."))))
    let ils := ils1.filter
      (fun il => !il.has_comma && !strStarts il.module "__future__" &&
                 !pyflakesCanHandle il)
    let trie := ils.foldl
      (fun tr il => trieInsert (strSplitC '.' il.name) il.lineno tr) []
    let wd := walkFrom toks (toks.length + 1) 0 trie
    let depthBound := 1 + (ils.map (fun il => (strSplitC '.' il.name).length)).sum
    let un := find_unused_imports (pySplitLines contents) depthBound wd.2 []
    .ok (wd.1.map (fun d =>
        match d with
        | .missing p n => (n, "Missing import: maybe " ++ String.intercalate "." p)
        | .nonmodule p n =>
          (n, "Unexpectedly referencing a non-module: " ++ String.intercalate "." p)
        | .unused p n => (n, "Unused import: " ++ String.intercalate "." p))
      ++ un.map (fun u => (u.2, "Unused import: " ++ String.intercalate "." u.1)))

/-- The token stream of `"import foo.bar\nx = foo.ball\n"`. -/
def fooBarToks : List Tok :=
  [mkTok "import" 1 0 "import foo.bar\n",
   mkTok "foo" 1 7 "import foo.bar\n",
   mkTok "." 1 10 "import foo.bar\n",
   mkTok "bar" 1 11 "import foo.bar\n",
   nlTok 1 14 "import foo.bar\n",
   mkTok "x" 2 0 "x = foo.ball\n",
   mkTok "=" 2 2 "x = foo.ball\n",
   mkTok "foo" 2 4 "x = foo.ball\n",
   mkTok "." 2 7 "x = foo.ball\n",
   mkTok "ball" 2 8 "x = foo.ball\n",
   nlTok 2 12 "x = foo.ball\n",
   mkTok "" 3 0 ""]

/-- The contents of that file. -/
def fooBarContents : String := "import foo.bar\nx = foo.ball\n"

/-- Dict lookup on an association list (generic values). -/
def lookupA {α : Type} (k : String) (l : List (String × α)) : Option α :=
  (l.find? (fun p => p.1 = k)).map (·.2)

/-- Dict assignment on an association list (overwrite or append). -/
def updA {α : Type} (k : String) (v : α) (l : List (String × α)) :
    List (String × α) :=
  if l.any (fun p => p.1 = k) then
    l.map (fun p => if p.1 = k then (k, v) else p)
  else l ++ [(k, v)]

/-- The `_transitive_top_level_imports` cache: module name to the set of
modules reached so far. -/
abbrev Strans : Type := List (String × Finset String)

/-- `trans[m] |= r` (the entry is present whenever the source updates it). -/
def updUnion (m : String) (r : Finset String) (S : Strans) : Strans :=
  S.map (fun p => if p.1 = m then (p.1, p.2 ∪ r) else p)

/-- The `for direct_import in direct_imports` loop of
`_calculate_transitive_imports`, with the recursive call abstracted as
`step`: union each recursive result into module `m`'s entry. -/
def calcStep (step : String → Strans → Option (Finset String × Strans)) :
    List String → String → Strans → Option Strans
  | [], _, S => some S
  | d :: ds, m, S =>
    match step d S with
    | none => none
    | some (r, S') => calcStep step ds m (updUnion m r S')

/-- `_calculate_transitive_imports`, given the effective direct-import
function `D`: if `m` is cached return the entry, else seed the entry
with the direct imports (the cycle guard) and fold the recursive calls
over them, unioning each result into the entry.  `fuel` bounds the
recursion depth; `none` means it ran out. -/
def calcT (D : String → List String) : Nat → String → Strans →
    Option (Finset String × Strans)
  | 0, _, _ => none
  | fuel + 1, m, S =>
    match lookupA m S with
    | some r => some (r, S)
    | none =>
      match calcStep (calcT D fuel) (D m) m (updA m (D m).toFinset S) with
      | none => none
      | some S2 =>
        match lookupA m S2 with
        | some r => some (r, S2)
        | none => none

/-- The mutable module-graph caches the import linter owns:
`_direct_top_level_imports` as overrides of the parse-derived
direct imports (only `_add_edge` ever makes an entry differ from what
parsing gives, so the cache is modelled as its overridden entries), and
`_transitive_top_level_imports`. -/
structure ISt where
  dOv : List (String × List String)
  trans : Strans
deriving DecidableEq

/-- `_get_top_level_imports` under the current caches: the override if
`_add_edge` wrote one, else what parsing the module's file gives (`D`). -/
def getTop (D : String → List String) (st : ISt) (m : String) : List String :=
  (lookupA m st.dOv).getD (D m)

/-- `_add_edge(module, importee)`: update the direct-import cache with
the new edge, compute the importee's transitive imports, then union
`{importee} ∪ transitive(importee)` into every cached entry that
contains `module`. -/
def add_edge (D : String → List String) (fuel : Nat) (m t : String)
    (st : ISt) : Option ISt :=
  let cur := getTop D st m
  let newDirect := if t ∈ cur then cur else cur ++ [t]
  let st1 : ISt := ⟨updA m newDirect st.dOv, st.trans⟩
  match calcT (getTop D st1) fuel t st1.trans with
  | none => none
  | some (r, S') =>
    let newTrans := insert t r
    some ⟨st1.dOv, S'.map (fun p => if m ∈ p.2 then (p.1, p.2 ∪ newTrans) else p)⟩

/-- The spec invariant on a transitive cache: every cached entry
contains that module's direct top-level imports. -/
def calcInv (D : String → List String) (S : Strans) : Prop :=
  ∀ p ∈ S, ∀ x ∈ D p.1, x ∈ p.2

/-- The same invariant over the full cache state (direct imports read
through the overrides). -/
def transInv (D : String → List String) (st : ISt) : Prop :=
  calcInv (getTop D st) st.trans

/-- One top-level import edge of the effective graph `D`. -/
def Imports (D : String → List String) (a b : String) : Prop := b ∈ D a

/-- Reachability along one or more top-level import edges. -/
def ReachTC (D : String → List String) (a b : String) : Prop :=
  Relation.TransGen (Imports D) a b

/-- The mutable state of `_CircuitFinder`: the `blocked` flags and the
`blockages` sets (modelled as lists; `set.pop()` pops the head). -/
structure CFSt where
  blocked : List Bool
  blockages : List (List Nat)
deriving Repr, DecidableEq

/-- `self.blocked[v]`. -/
def getBlocked (st : CFSt) (v : Nat) : Bool := st.blocked.getD v false

/-- `self.blocked[v] = b`. -/
def setBlocked (st : CFSt) (v : Nat) (b : Bool) : CFSt :=
  ⟨st.blocked.set v b, st.blockages⟩

/-- `self.blockages[v]`. -/
def getBlockages (st : CFSt) (v : Nat) : List Nat := st.blockages.getD v []

/-- `self.blockages[v] = l`. -/
def setBlockages (st : CFSt) (v : Nat) (l : List Nat) : CFSt :=
  ⟨st.blocked, st.blockages.set v l⟩

/-- The `while self.blockages[v]` loop of `unblock`, with the recursive
`unblock` call abstracted as `ub`: pop entries, recursing into still-
blocked ones. -/
def drainGo (ub : Nat → CFSt → Option CFSt) : Nat → Nat → CFSt → Option CFSt
  | 0, _, _ => none
  | dfuel + 1, v, st =>
    match getBlockages st v with
    | [] => some st
    | w :: rest =>
      let st1 := setBlockages st v rest
      if getBlocked st1 w then
        match ub w st1 with
        | none => none
        | some st2 => drainGo ub dfuel v st2
      else drainGo ub dfuel v st1

/-- `_CircuitFinder.unblock`: clear the flag, then drain the blockages. -/
def unblock : Nat → Nat → CFSt → Option CFSt
  | 0, _, _ => none
  | fuel + 1, v, st => drainGo (unblock fuel) fuel v (setBlocked st v false)

/-- The `for adjacent_vertex in self.adjacency_matrix[start_vertex]`
loop of `find_paths`, with the recursive `find_paths` call abstracted as
`fp` (`saw_a_cycle` is set per yielded circuit, so a recursive call
contributes it only if it yielded at least one). -/
def loopAdjGo
    (fp : Nat → CFSt → List Nat → Option (List (List Nat) × CFSt × Bool)) :
    List Nat → Nat → CFSt → List Nat →
    Option (List (List Nat) × CFSt × Bool)
  | [], _, st, _ => some ([], st, false)
  | a :: rest, target, st, path1 =>
    if a < target then loopAdjGo fp rest target st path1
    else if a = target then
      match loopAdjGo fp rest target st path1 with
      | none => none
      | some (cs, st', saw') =>
        some ((path1 ++ [path1.headI]) :: cs, st', true || saw')
    else if getBlocked st a then loopAdjGo fp rest target st path1
    else
      match fp a st path1 with
      | none => none
      | some (cs, st', _) =>
        match loopAdjGo fp rest target st' path1 with
        | none => none
        | some (cs2, st'', saw2) => some (cs ++ cs2, st'', !cs.isEmpty || saw2)

/-- `_CircuitFinder.find_paths`: push `start` onto the path, block it,
walk the adjacency list, then unblock on success or record blockages on
failure.  Returns the circuits yielded, the final state, and whether a
cycle was seen. -/
def findPaths (adj : List (List Nat)) : Nat → Nat → Nat → CFSt → List Nat →
    Option (List (List Nat) × CFSt × Bool)
  | 0, _, _, _, _ => none
  | fuel + 1, start, target, st, path =>
    let path1 := path ++ [start]
    let st1 := setBlocked st start true
    match loopAdjGo (fun a st' p => findPaths adj fuel a target st' p)
        (adj.getD start []) target st1 path1 with
    | none => none
    | some (cycles, st2, saw) =>
      if saw then
        match unblock fuel start st2 with
        | none => none
        | some st3 => some (cycles, st3, true)
      else
        let st3 := (adj.getD start []).foldl (fun s a =>
          if start ∈ getBlockages s a then s
          else setBlockages s a (getBlockages s a ++ [start])) st2
        some (cycles, st3, false)

/-- `_CircuitFinder.find_circuits(s)`: fresh `blocked`/`blockages`/path,
then search for circuits through `s` in the subgraph of vertices `≥ s`. -/
def findCircuits (fuel : Nat) (adj : List (List Nat)) (s : Nat) :
    Option (List (List Nat) × CFSt × Bool) :=
  findPaths adj fuel s s
    ⟨List.replicate adj.length false, List.replicate adj.length []⟩ []

/-- The `for v in xrange(self.n)` loop of `_CircuitFinder.run`. -/
def runVerts (fuel : Nat) (adj : List (List Nat)) : List Nat →
    Option (List (List Nat))
  | [] => some []
  | v :: vs =>
    match findCircuits fuel adj v with
    | none => none
    | some (cs, _, _) =>
      match runVerts fuel adj vs with
      | none => none
      | some rest => some (cs ++ rest)

/-- `_CircuitFinder.run`: every elementary circuit of the graph. -/
def runCF (fuel : Nat) (adj : List (List Nat)) : Option (List (List Nat)) :=
  runVerts fuel adj (List.range adj.length)

/-- One comparison step of Python `min`: keep the strictly smaller
element (and the earlier one on ties). -/
def pminf (cur y : String) : String := if strLtB y cur then y else cur

/-- Python `min` over a nonempty list of strings (the source never
applies it to an empty list). -/
def pymin : List String → String
  | [] => ""
  | x :: xs => xs.foldl pminf x

/-- `_normalized_import_cycle`: rotate the cycle (given with its first
node repeated at the end) so that the alphabetically first node that is
in `sort_candidates` (or in the whole cycle, if none is) comes first. -/
def normalized_import_cycle (cycle : List String) (sc : List String) :
    List String :=
  let se := cycle.filter (fun n => sc.contains n)
  let se := if se.isEmpty then cycle else se
  let mi := cycle.indexOf (pymin se)
  (cycle.drop mi).dropLast ++ cycle.take (mi + 1)

/-- The module-to-ordinal mapping state of `_find_all_cycles`. -/
structure MapSt where
  m2i : List (String × Nat)
  i2m : List String
  adj : List (List Nat)
deriving Repr, DecidableEq

/-- The `for i in _get_top_level_imports(module)` loop of
`_add_imports_to_mappings`, with the recursive call abstracted as `ai`. -/
def addImportsGo (ai : String → MapSt → Option (Nat × MapSt)) :
    List String → Nat → MapSt → Option MapSt
  | [], _, st => some st
  | i :: is', my, st =>
    match ai i st with
    | none => none
    | some (idx, st') =>
      addImportsGo ai is' my
        ⟨st'.m2i, st'.i2m, st'.adj.set my (st'.adj.getD my [] ++ [idx])⟩

/-- `_add_imports_to_mappings`: assign the module the next ordinal and
recurse into its direct imports, building the adjacency matrix. -/
def addImports (D : String → List String) : Nat → String → MapSt →
    Option (Nat × MapSt)
  | 0, _, _ => none
  | fuel + 1, m, st =>
    match lookupA m st.m2i with
    | some i => some (i, st)
    | none =>
      let my := st.i2m.length
      let st1 : MapSt := ⟨st.m2i ++ [(m, my)], st.i2m ++ [m], st.adj ++ [[]]⟩
      match addImportsGo (addImports D fuel) (D m) my st1 with
      | none => none
      | some st2 => some (my, st2)

/-- The `for module in modules` seeding loop of `_find_all_cycles`. -/
def seedModules (D : String → List String) (fuel : Nat) :
    List String → MapSt → Option MapSt
  | [], st => some st
  | m :: ms, st =>
    match addImports D fuel m st with
    | none => none
    | some (_, st') => seedModules D fuel ms st'

/-- `_find_all_cycles`: map modules to ordinals, run the circuit finder,
translate each circuit back to module names, and normalize it with the
seed modules as sort candidates. -/
def find_all_cycles (fuel : Nat) (D : String → List String)
    (modules : List String) : Option (List (List String)) :=
  match seedModules D fuel modules ⟨[], [], []⟩ with
  | none => none
  | some st =>
    match runCF fuel st.adj with
    | none => none
    | some cycIdx =>
      some (cycIdx.map (fun ci =>
        normalized_import_cycle (ci.map (fun i => st.i2m.getD i "")) modules))

/-- `os.path.splitext(s)[0]`: drop the extension starting at the last
dot of the basename (leading dots of the basename do not count). -/
def splitextRoot (s : String) : String :=
  let base := ((strSplitC '/' s).getLastD "").toList
  let core := base.dropWhile (· = '.')
  if core.contains '.' then
    ofChars (s.toList.take
      (s.toList.length - ((core.reverse.takeWhile (· ≠ '.')).length + 1)))
  else s

/-- `ka_root.relpath(os.path.splitext(f)[0]).replace(os.sep, '.')`: the
module a file backs. -/
def moduleOfFile (f : String) : String :=
  strMapC '/' '.' (kaRootRelpath (splitextRoot f))

/-- `_get_top_level_imports` reading through the per-file parse results
`ilines` (`none` is the file-not-found sentinel, which makes the module
edge-free); third-party modules are forced to an ignored path. -/
def get_top_level_imports (ilines : String → Option (List ImportLine))
    (m : String) : List String :=
  let path := if strStarts m "third_party." then ""
    else strMapC '.' '/' m ++ ".py"
  match ilines (kaRootJoin path) with
  | none => []
  | some ils => (((ils.filter (·.is_toplevel)).map (·.module))).dedup

/-- `_get_late_imports`, likewise. -/
def get_late_imports (ilines : String → Option (List ImportLine))
    (m : String) : List String :=
  let path := if strStarts m "third_party." then ""
    else strMapC '.' '/' m ++ ".py"
  match ilines (kaRootJoin path) with
  | none => []
  | some ils => (((ils.filter (fun il => !il.is_toplevel)).map (·.module))).dedup

/-- A diagnostic of the circular-import linter: a reported cycle, or a
"Make this a top-level import: it doesn't cause cycles" recommendation
for the late edge `module → target`. -/
inductive CDiag where
  | cycle (f : String) (lineno : Nat) (cycleList : List String)
  | promote (f : String) (lineno : Nat) (module target : String)
deriving Repr, DecidableEq

/-- Lexicographic `<` on cycles (Python tuple comparison). -/
def listLexLt : List String → List String → Bool
  | [], [] => false
  | [], _ :: _ => true
  | _ :: _, [] => false
  | a :: as, b :: bs =>
    if strLtB a b then true else if strLtB b a then false else listLexLt as bs

/-- Stable insertion of a cycle into a sorted list (equal elements keep
their earlier position). -/
def insertSorted (x : List String) : List (List String) → List (List String)
  | [] => [x]
  | y :: ys => if listLexLt x y then x :: y :: ys else y :: insertSorted x ys

/-- `sorted(...)` over cycles (stable, ascending). -/
def sortCycles (cs : List (List String)) : List (List String) :=
  cs.foldl (fun acc c => insertSorted c acc) []

/-- The reporting loop of `lint_circular_imports`: for each cycle whose
canonical first module is a file under lint, report it at the line where
it imports the second module.  The second component records whether the
`next(...)` lookup raised (`StopIteration` aborting the linter). -/
def cycleDiags (ilines : String → Option (List ImportLine))
    (m2f : List (String × String)) : List (List String) → List CDiag × Bool
  | [] => ([], false)
  | cyc :: rest =>
    match lookupA (cyc.headD "") m2f with
    | none => cycleDiags ilines m2f rest
    | some f =>
      match ilines f with
      | none => ([], true)
      | some ils =>
        match ils.find? (fun il => il.module = cyc.getD 1 "") with
        | none => ([], true)
        | some il =>
          let r := cycleDiags ilines m2f rest
          (CDiag.cycle f il.lineno cyc :: r.1, r.2)

/-- `MODULE_BLACKLIST` of `_lint_unnecessary_late_imports`. -/
def MODULE_BLACKLIST : List String :=
  ["appengine_config", "users.current_user", "testutil.gae_model",
   "testutil.mapreduce_stub", "tools.appengine_tool_setup",
   "tools.devservercontext", "tools.devshell", "shared_jinja",
   "pickle_util_test", "kake."]

/-- `LATE_IMPORT_BLACKLIST` of `_lint_unnecessary_late_imports`. -/
def LATE_IMPORT_BLACKLIST : List String :=
  ["sandbox_util", "mock", "kake.server_client", "kake.make"]

/-- The `for late_import in _get_late_imports(module)` loop of
`_lint_unnecessary_late_imports`, threading the graph caches: skip
blacklisted targets, skip targets whose transitive imports contain the
module (promotion would create a cycle), skip side-effect imports, and
otherwise recommend promotion and add the hypothetical edge.  The last
component records whether the run aborted (`StopIteration`, or fuel). -/
def lateCands (D : String → List String) (fuel : Nat)
    (ilines : String → Option (List ImportLine)) (contents : String → String)
    (f module : String) (st : ISt) :
    List String → List CDiag × ISt × Bool
  | [] => ([], st, false)
  | t :: rest =>
    if t ∈ LATE_IMPORT_BLACKLIST then
      lateCands D fuel ilines contents f module st rest
    else
      match calcT (getTop D st) fuel t st.trans with
      | none => ([], st, true)
      | some (r, S') =>
        let st1 : ISt := ⟨st.dOv, S'⟩
        if module ∈ r then lateCands D fuel ilines contents f module st1 rest
        else
          match ilines f with
          | none => ([], st1, true)
          | some ils =>
            match ils.find? (fun il => il.module = t ∧ !il.is_toplevel) with
            | none => ([], st1, true)
            | some il =>
              let ln := (pySplitLines (contents f)).getD (il.lineno - 1) ""
              if strHasSub ln "@UnusedImport" ∨ strHasSub ln "@Nolint" then
                lateCands D fuel ilines contents f module st1 rest
              else
                match add_edge D fuel module t st1 with
                | none => ([CDiag.promote f il.lineno module t], st1, true)
                | some st2 =>
                  let res := lateCands D fuel ilines contents f module st2 rest
                  (CDiag.promote f il.lineno module t :: res.1, res.2)

/-- The `for f in files_to_lint` loop of
`_lint_unnecessary_late_imports`, skipping blacklisted modules. -/
def lateFiles (D : String → List String) (fuel : Nat)
    (ilines : String → Option (List ImportLine)) (contents : String → String)
    (st : ISt) : List String → List CDiag × Bool
  | [] => ([], false)
  | f :: rest =>
    let module := moduleOfFile f
    if module ∈ MODULE_BLACKLIST ∨
        (MODULE_BLACKLIST.filter (fun m => strEnds m ".")).any
          (fun m => strStarts module m) then
      lateFiles D fuel ilines contents st rest
    else
      let r := lateCands D fuel ilines contents f module st
        (get_late_imports ilines module)
      if r.2.2 then (r.1, true)
      else
        let r2 := lateFiles D fuel ilines contents r.2.1 rest
        (r.1 ++ r2.1, r2.2)

/-- `_lint_unnecessary_late_imports`: the caches start with no overrides
and no transitive entries (nothing earlier in the run computes them). -/
def lint_unnecessary_late_imports (fuel : Nat)
    (ilines : String → Option (List ImportLine)) (contents : String → String)
    (files : List String) : List CDiag × Bool :=
  lateFiles (get_top_level_imports ilines) fuel ilines contents ⟨[], []⟩
    (files.filter (fun f => strEnds f ".py"))

/-- `lint_circular_imports`: enumerate and report all cycles; when the
enumerator saw none at all, run the late-import optimizer.  The second
component records whether the run aborted (exception or fuel). -/
def lint_circular_imports (fuel : Nat)
    (ilines : String → Option (List ImportLine)) (contents : String → String)
    (files : List String) : List CDiag × Bool :=
  let files := files.filter (fun f => strEnds f ".py")
  let m2f := files.foldl (fun acc f => updA (moduleOfFile f) f acc) []
  match find_all_cycles fuel (get_top_level_imports ilines) (m2f.map (·.1)) with
  | none => ([], true)
  | some cycs =>
    let sorted := sortCycles cycs
    let r := cycleDiags ilines m2f sorted
    if sorted.isEmpty then
      let r2 := lint_unnecessary_late_imports fuel ilines contents files
      (r.1 ++ r2.1, r.2 || r2.2)
    else r

/-- The tokens the `_get_import_lines` state machine actually consumes
(parens and NEWLINE tokens are skipped before the dispatch). -/
def machineToks (l : List Tok) : List Tok :=
  l.filter (fun t => !(t.text = "(" || t.text = ")" || t.isNewline))

/-- Adjacent machine tokens that do not trip the parser's assertions:
no `import` directly after `from`, no `as` or `.` directly after
`import`. -/
def noBadPair (x y : Tok) : Prop :=
  ¬(x.text = "from" ∧ y.text = "import") ∧
  ¬(x.text = "import" ∧ (y.text = "as" ∨ y.text = "."))

/-- Every machine token except possibly the final one has nonempty text
(real streams end in the empty ENDMARKER token). -/
def nonemptyButLast (l : List Tok) : Prop := ∀ t ∈ l.dropLast, t.text ≠ ""

/-- Token streams on which the parser provably cannot raise. -/
def goodStream (l : List Tok) : Prop :=
  List.Chain' noBadPair (machineToks l) ∧ nonemptyButLast (machineToks l)

/-- An optional string Python treats as falsy. -/
def pyOptFalsy (o : Option String) : Prop := o = none ∨ o = some ""

/-- What must hold of the parser state relative to the remaining machine
tokens for no assertion to fire. -/
def stateLink (st : PSt) (mt : List Tok) : Prop :=
  match st.field with
  | .fromF =>
    (pyOptFalsy st.fromPart → ∀ t₀ ∈ mt.head?, t₀.text ≠ "import") ∧
    (st.fromPart = some "" → mt = []) ∧
    st.importPart ≠ some ""
  | .importF =>
    (st.importPart = none →
      ∀ t₀ ∈ mt.head?, t₀.text ≠ "as" ∧ t₀.text ≠ ".") ∧
    (st.importPart = some "" → mt = [])
  | .asF => st.importPart ≠ none
  | .endF => st.importPart ≠ none
  | .start => True

/-- The loop invariant of the no-raise proof. -/
def parserInv (st : PSt) (rest : List Tok) : Prop :=
  List.Chain' noBadPair (machineToks rest) ∧
  nonemptyButLast (machineToks rest) ∧ stateLink st (machineToks rest)

/-- The two-module cycle graph a → b → a. -/
def Dab : String → List String :=
  fun m => if m = "a" then ["b"] else if m = "b" then ["a"] else []

/-- Its module universe. -/
def Uab : Finset String := {"a", "b"}

/-- The edge-free graph. -/
def Dempty : String → List String := fun _ => []

/-- The graph a → b, a → c, b → d, c → d, d → a of the enumerator claim. -/
def Dsquare : String → List String :=
  fun m => if m = "a" then ["b", "c"] else if m = "b" then ["d"]
    else if m = "c" then ["d"] else if m = "d" then ["a"] else []

/-- The graph with the single self-loop a → a. -/
def Dself : String → List String := fun m => if m = "a" then ["a"] else []

/-- A parsed `import b` line at the top of `a.py`. -/
def ilineAtoB : ImportLine :=
  ⟨kaRootJoin "a.py", 1, 0, "b", "b", 0, true, false, false, false⟩

/-- A parsed `import a` line at the top of `b.py`. -/
def ilineBtoA : ImportLine :=
  ⟨kaRootJoin "b.py", 1, 0, "a", "a", 0, true, false, false, false⟩

/-- Parse results for a two-file project where a.py and b.py import each
other at top level. -/
def ilinesCycAB : String → Option (List ImportLine) :=
  fun f => if f = kaRootJoin "a.py" then some [ilineAtoB]
    else if f = kaRootJoin "b.py" then some [ilineBtoA] else none

/-- A graph for the optimizer guard: module b imports a at top level. -/
def DguardBA : String → List String := fun m => if m = "b" then ["a"] else []

/-- The token stream of `"import foo.bar\nfoo = 1\n"`, where `foo` is
redefined as a plain variable on line 2. -/
def fooRedefToks : List Tok :=
  [mkTok "import" 1 0 "import foo.bar\n",
   mkTok "foo" 1 7 "import foo.bar\n",
   mkTok "." 1 10 "import foo.bar\n",
   mkTok "bar" 1 11 "import foo.bar\n",
   nlTok 1 14 "import foo.bar\n",
   mkTok "foo" 2 0 "foo = 1\n",
   mkTok "=" 2 4 "foo = 1\n",
   mkTok "1" 2 6 "foo = 1\n",
   nlTok 2 7 "foo = 1\n",
   mkTok "" 3 0 ""]

/-- The import trie for the single import `foo.bar` on line 1. -/
def fooBarTrie : List (String × TrieV) := trieInsert ["foo", "bar"] 1 []

/-- The node `_normalized_import_cycle` rotates to the front: the
alphabetically smallest node of the cycle that is in `sort_candidates`,
falling back to the smallest node overall. -/
def cycleMin (c sc : List String) : String :=
  let se := c.filter (fun n => sc.contains n)
  pymin (if se.isEmpty then c else se)

/-- C6: on the graph a → b, a → c, b → d, c → d, d → a with seed set
containing a, b, c, d, the cycle enumerator reports exactly the two
simple cycles (a, b, d, a) and (a, c, d, a) after normalization — each
exactly once and nothing else. -/
theorem C6_two_cycles :
    find_all_cycles 32 Dsquare ["a", "b", "c", "d"] =
      some [["a", "b", "d", "a"], ["a", "c", "d", "a"]] := by
  rfl

/-- C7: a module that imports itself surfaces through the same
enumeration-and-normalization pipeline as the one-element cycle (a, a). -/
theorem C7_self_cycle :
    find_all_cycles 32 Dself ["a"] = some [["a", "a"]] := by
  rfl

/-- C8: parsing `from . import frozen_model` in content/test.py yields an
ImportLine with module "content.frozen_model" and level 1 (one trailing
path segment of the importing file is stripped and the remainder
prepended). -/
theorem C8_relative_import :
    get_import_lines (kaRootJoin "content/test.py") frozenModelToks =
      .ok [⟨kaRootJoin "content/test.py", 1, 0, "content.frozen_model",
            "frozen_model", 1, true, false, true, false⟩] := by
  rfl

/-- C9: for a file containing `import foo.bar` whose token stream later
references only `foo.ball`, the unused/missing linter yields exactly the
missing-import diagnostic for foo.ball at the use site (line 2) and the
unused-import diagnostic for foo.bar at the import line (line 1). -/
theorem C9_unused_and_missing :
    lint_unused_and_missing_imports "f" fooBarToks fooBarContents =
      .ok [(2, "Missing import: maybe foo.ball"),
           (1, "Unused import: foo.bar")] := by
  rfl

theorem strLtL_irrefl : ∀ a : List Char, strLtL a a = false
  | [] => rfl
  | c :: cs => by simp [strLtL, strLtL_irrefl cs]

theorem strLtL_conn : ∀ a b : List Char,
    strLtL a b = false → strLtL b a = false → a = b
  | [], [], _, _ => rfl
  | [], _ :: _, h, _ => by simp [strLtL] at h
  | _ :: _, [], _, h => by simp [strLtL] at h
  | a :: as, b :: bs, h1, h2 => by
    simp only [strLtL] at h1 h2
    rcases lt_trichotomy a b with hab | hab | hab
    · simp [hab] at h1
    · subst hab
      simp only [lt_irrefl, if_false] at h1 h2
      rw [strLtL_conn as bs h1 h2]
    · simp [hab] at h2

theorem strLtL_trans : ∀ a b c : List Char,
    strLtL a b = true → strLtL b c = true → strLtL a c = true
  | [], _ :: _, _ :: _, _, _ => rfl
  | [], _ :: _, [], _, h2 => by simp [strLtL] at h2
  | [], [], _, h1, _ => by simp [strLtL] at h1
  | _ :: _, [], _, h1, _ => by simp [strLtL] at h1
  | _ :: _, _ :: _, [], _, h2 => by simp [strLtL] at h2
  | a :: as, b :: bs, c :: cs, h1, h2 => by
    simp only [strLtL] at h1 h2 ⊢
    rcases lt_trichotomy a b with hab | hab | hab
    · rcases lt_trichotomy b c with hbc | hbc | hbc
      · simp [lt_trans hab hbc]
      · subst hbc; simp [hab]
      · simp [hbc, lt_asymm hbc] at h2
    · subst hab
      rcases lt_trichotomy a c with hac | hac | hac
      · simp [hac]
      · subst hac
        simp only [lt_irrefl, if_false] at h1 h2 ⊢
        exact strLtL_trans as bs cs h1 h2
      · simp [hac, lt_asymm hac] at h2
    · simp [hab, lt_asymm hab] at h1

theorem strToListInj : ∀ a b : String, a.toList = b.toList → a = b := by
  intro a b h
  cases a
  cases b
  exact congrArg String.mk h

theorem strLtB_irrefl (a : String) : strLtB a a = false := strLtL_irrefl _

theorem strLtB_conn (a b : String) (h1 : strLtB a b = false)
    (h2 : strLtB b a = false) : a = b :=
  strToListInj a b (strLtL_conn _ _ h1 h2)

theorem strLtB_trans (a b c : String) (h1 : strLtB a b = true)
    (h2 : strLtB b c = true) : strLtB a c = true :=
  strLtL_trans _ _ _ h1 h2

theorem strLtB_tri (a b : String) :
    strLtB a b = true ∨ a = b ∨ strLtB b a = true := by
  by_cases h1 : strLtB a b = true
  · exact Or.inl h1
  · by_cases h2 : strLtB b a = true
    · exact Or.inr (Or.inr h2)
    · rw [Bool.not_eq_true] at h1 h2
      exact Or.inr (Or.inl (strLtB_conn a b h1 h2))

theorem foldMin_mem (xs : List String) : ∀ cur : String,
    xs.foldl pminf cur = cur ∨ xs.foldl pminf cur ∈ xs := by
  induction xs with
  | nil => intro cur; exact Or.inl rfl
  | cons x xs ih =>
    intro cur
    rw [List.foldl_cons]
    rcases ih (pminf cur x) with h | h
    · rw [h]
      unfold pminf
      split
      · exact Or.inr (List.mem_cons_self _ _)
      · exact Or.inl rfl
    · exact Or.inr (List.mem_cons_of_mem _ h)

theorem foldMin_lb (xs : List String) : ∀ cur y : String,
    (y = cur ∨ y ∈ xs) → strLtB y (xs.foldl pminf cur) = false := by
  induction xs with
  | nil =>
    intro cur y hy
    rcases hy with rfl | hy
    · exact strLtB_irrefl y
    · exact absurd hy (List.not_mem_nil y)
  | cons x xs ih =>
    intro cur y hy
    rw [List.foldl_cons]
    by_cases hx : strLtB x cur = true
    · have hpm : pminf cur x = x := by unfold pminf; rw [hx]; rfl
      rw [hpm]
      rcases hy with rfl | hy
      · by_contra hc
        rw [Bool.not_eq_false] at hc
        have hxr := ih x x (Or.inl rfl)
        rw [strLtB_trans x y _ hx hc] at hxr
        exact Bool.true_eq_false.mp hxr
      · rcases List.mem_cons.mp hy with rfl | hy
        · exact ih y y (Or.inl rfl)
        · exact ih x y (Or.inr hy)
    · have hpm : pminf cur x = cur := by
        unfold pminf
        rw [Bool.not_eq_true] at hx
        rw [hx]
        rfl
      rw [hpm]
      rcases hy with rfl | hy
      · exact ih y y (Or.inl rfl)
      · rcases List.mem_cons.mp hy with rfl | hy
        · rw [Bool.not_eq_true] at hx
          by_contra hc
          rw [Bool.not_eq_false] at hc
          have hcr := ih cur cur (Or.inl rfl)
          rcases strLtB_tri y cur with hyc | hyc | hyc
          · rw [hyc] at hx
            exact Bool.true_eq_false.mp hx
          · subst hyc
            rw [hc] at hcr
            exact Bool.true_eq_false.mp hcr
          · rw [strLtB_trans cur y _ hyc hc] at hcr
            exact Bool.true_eq_false.mp hcr
        · exact ih cur y (Or.inr hy)

theorem pymin_mem : ∀ l : List String, l ≠ [] → pymin l ∈ l
  | [], h => absurd rfl h
  | x :: xs, _ => by
    show xs.foldl pminf x ∈ x :: xs
    rcases foldMin_mem xs x with h | h
    · rw [h]; exact List.mem_cons_self _ _
    · exact List.mem_cons_of_mem _ h

theorem pymin_lb : ∀ l : List String, ∀ y ∈ l, strLtB y (pymin l) = false
  | [], y, h => absurd h (List.not_mem_nil y)
  | x :: xs, y, h => by
    show strLtB y (xs.foldl pminf x) = false
    rcases List.mem_cons.mp h with rfl | h
    · exact foldMin_lb xs y y (Or.inl rfl)
    · exact foldMin_lb xs x y (Or.inr h)

theorem pymin_congr (l₁ l₂ : List String) (h : ∀ x, x ∈ l₁ ↔ x ∈ l₂)
    (h1 : l₁ ≠ []) (h2 : l₂ ≠ []) : pymin l₁ = pymin l₂ :=
  strLtB_conn _ _
    (pymin_lb l₂ _ ((h _).mp (pymin_mem l₁ h1)))
    (pymin_lb l₁ _ ((h _).mpr (pymin_mem l₂ h2)))

theorem cycleMin_mem (c sc : List String) (hc : c ≠ []) : cycleMin c sc ∈ c := by
  show pymin (if (List.filter (fun n => sc.contains n) c).isEmpty = true then c
      else List.filter (fun n => sc.contains n) c) ∈ c
  by_cases he : (List.filter (fun n => sc.contains n) c).isEmpty = true
  · rw [if_pos he]
    exact pymin_mem c hc
  · rw [if_neg he]
    exact List.mem_of_mem_filter
      (pymin_mem _ (fun h => he (List.isEmpty_iff.mpr h)))

theorem cycleMin_congr (c c' sc : List String) (hm : ∀ x, x ∈ c ↔ x ∈ c')
    (hc : c ≠ []) (hc' : c' ≠ []) : cycleMin c sc = cycleMin c' sc := by
  have hfm : ∀ x, x ∈ List.filter (fun n => sc.contains n) c ↔
      x ∈ List.filter (fun n => sc.contains n) c' := by
    intro x
    simp only [List.mem_filter]
    exact and_congr_left (fun _ => hm x)
  show pymin (if (List.filter (fun n => sc.contains n) c).isEmpty = true then c
      else List.filter (fun n => sc.contains n) c) =
    pymin (if (List.filter (fun n => sc.contains n) c').isEmpty = true then c'
      else List.filter (fun n => sc.contains n) c')
  by_cases he : (List.filter (fun n => sc.contains n) c).isEmpty = true
  · have he' : (List.filter (fun n => sc.contains n) c').isEmpty = true := by
      rw [List.isEmpty_iff] at he ⊢
      rw [List.eq_nil_iff_forall_not_mem] at he ⊢
      exact fun x hx => he x ((hfm x).mpr hx)
    rw [if_pos he, if_pos he']
    exact pymin_congr c c' hm hc hc'
  · have he' : ¬ (List.filter (fun n => sc.contains n) c').isEmpty = true := by
      intro h
      apply he
      rw [List.isEmpty_iff] at h ⊢
      rw [List.eq_nil_iff_forall_not_mem] at h ⊢
      exact fun x hx => h x ((hfm x).mp hx)
    rw [if_neg he, if_neg he']
    exact pymin_congr _ _ hfm (fun h => he (List.isEmpty_iff.mpr h))
      (fun h => he' (List.isEmpty_iff.mpr h))

theorem mem_cycle_iff (ns : List String) (h0 : ns ≠ []) (x : String) :
    x ∈ ns ++ [ns.headI] ↔ x ∈ ns := by
  simp only [List.mem_append, List.mem_singleton]
  constructor
  · rintro (h | rfl)
    · exact h
    · cases ns with
      | nil => exact absurd rfl h0
      | cons y ys => exact List.mem_cons_self y ys
  · exact Or.inl

theorem norm_unfold (c sc : List String) :
    normalized_import_cycle c sc =
      (c.drop (c.indexOf (cycleMin c sc))).dropLast ++
        c.take (c.indexOf (cycleMin c sc) + 1) := rfl

theorem norm_cycle_eq (ns sc : List String) (h0 : ns ≠ []) :
    normalized_import_cycle (ns ++ [ns.headI]) sc =
      ns.rotate (ns.indexOf (cycleMin (ns ++ [ns.headI]) sc)) ++
        [cycleMin (ns ++ [ns.headI]) sc] := by
  have hcne : ns ++ [ns.headI] ≠ [] := by
    intro h
    exact absurd (List.append_eq_nil.mp h).1 h0
  have hm : cycleMin (ns ++ [ns.headI]) sc ∈ ns :=
    (mem_cycle_iff ns h0 _).mp (cycleMin_mem _ sc hcne)
  set m := cycleMin (ns ++ [ns.headI]) sc with hmdef
  have hp : ns.indexOf m < ns.length := List.indexOf_lt_length.mpr hm
  rw [norm_unfold, ← hmdef]
  rw [List.indexOf_append_of_mem hm]
  have hdrop : (ns ++ [ns.headI]).drop (ns.indexOf m) =
      ns.drop (ns.indexOf m) ++ [ns.headI] :=
    List.drop_append_of_le_length (le_of_lt hp)
  have htake : (ns ++ [ns.headI]).take (ns.indexOf m + 1) =
      ns.take (ns.indexOf m + 1) :=
    List.take_append_of_le_length hp
  rw [hdrop, htake]
  rw [List.dropLast_concat]
  rw [List.rotate_eq_drop_append_take (le_of_lt hp)]
  rw [List.take_succ]
  rw [List.append_assoc]
  congr 2
  rw [List.getElem?_eq_getElem hp]
  simp only [Option.toList_some]
  rw [List.getElem_indexOf hp]

/-- C5: cycle normalization is rotation-invariant — for a simple cycle
(distinct nodes, start repeated at the end) every rotation normalizes to
the same canonical tuple, and that tuple starts with the
alphabetically smallest member that is in `sort_candidates` (falling
back to the smallest node overall when none is). -/
theorem C5_rotation_invariant (ns sc : List String) (r : ℕ)
    (h0 : ns ≠ []) (hnd : ns.Nodup) :
    normalized_import_cycle (ns.rotate r ++ [(ns.rotate r).headI]) sc =
      normalized_import_cycle (ns ++ [ns.headI]) sc ∧
    (normalized_import_cycle (ns ++ [ns.headI]) sc).headI =
      cycleMin (ns ++ [ns.headI]) sc := by
  have h0r : ns.rotate r ≠ [] := fun h => h0 (List.rotate_eq_nil_iff.mp h)
  have hndr : (ns.rotate r).Nodup := List.nodup_rotate.mpr hnd
  have hcne : ns ++ [ns.headI] ≠ [] := by
    intro h
    exact absurd (List.append_eq_nil.mp h).1 h0
  have hcner : ns.rotate r ++ [(ns.rotate r).headI] ≠ [] := by
    intro h
    exact absurd (List.append_eq_nil.mp h).1 h0r
  have hmm : ∀ x, x ∈ ns.rotate r ++ [(ns.rotate r).headI] ↔
      x ∈ ns ++ [ns.headI] := by
    intro x
    rw [mem_cycle_iff _ h0r, mem_cycle_iff _ h0, List.mem_rotate]
  have hM : cycleMin (ns.rotate r ++ [(ns.rotate r).headI]) sc =
      cycleMin (ns ++ [ns.headI]) sc :=
    cycleMin_congr _ _ sc hmm hcner hcne
  have hm : cycleMin (ns ++ [ns.headI]) sc ∈ ns :=
    (mem_cycle_iff ns h0 _).mp (cycleMin_mem _ sc hcne)
  set m := cycleMin (ns ++ [ns.headI]) sc with hmdef
  have hmr : m ∈ ns.rotate r := List.mem_rotate.mpr hm
  have hp : ns.indexOf m < ns.length := List.indexOf_lt_length.mpr hm
  constructor
  · rw [norm_cycle_eq (ns.rotate r) sc h0r, norm_cycle_eq ns sc h0, hM]
    congr 1
    rw [List.rotate_rotate]
    have hqlt : (ns.rotate r).indexOf m < (ns.rotate r).length :=
      List.indexOf_lt_length.mpr hmr
    have e1 : (ns.rotate r).get ⟨(ns.rotate r).indexOf m, hqlt⟩ = m :=
      List.indexOf_get hqlt
    have e2 := List.get_rotate ns r ⟨(ns.rotate r).indexOf m, hqlt⟩
    have e3 : ns.get ⟨((ns.rotate r).indexOf m + r) % ns.length,
        Nat.mod_lt _ (List.length_pos_of_ne_nil h0)⟩ =
        ns.get ⟨ns.indexOf m, hp⟩ := by
      rw [← e2, e1, List.indexOf_get hp]
    have e4 := List.nodup_iff_injective_get.mp hnd e3
    have key : ((ns.rotate r).indexOf m + r) % ns.length = ns.indexOf m :=
      congrArg Fin.val e4
    rw [hnd.rotate_congr_iff]
    left
    rw [Nat.mod_eq_of_lt hp]
    rw [Nat.add_comm]
    exact key
  · rw [norm_cycle_eq ns sc h0, ← hmdef]
    rcases hrot : ns.rotate (ns.indexOf m) with _ | ⟨x, xs⟩
    · exact absurd (List.rotate_eq_nil_iff.mp hrot) h0
    · have hx : (ns.rotate (ns.indexOf m)).head? = some x := by
        rw [hrot]
        rfl
      rw [List.head?_rotate hp, List.getElem?_eq_getElem hp,
        Option.some_inj, List.getElem_indexOf hp] at hx
      simp [hx]

theorem C5_rotation_invariant_witness :
    (["m", "q", "x", "b"] : List String) ≠ [] ∧
    (["m", "q", "x", "b"] : List String).Nodup ∧
    (normalized_import_cycle ((["m", "q", "x", "b"].rotate 2) ++
        [(["m", "q", "x", "b"].rotate 2).headI]) ["b", "m"] =
      normalized_import_cycle (["m", "q", "x", "b"] ++
        [(["m", "q", "x", "b"] : List String).headI]) ["b", "m"] ∧
    (normalized_import_cycle (["m", "q", "x", "b"] ++
        [(["m", "q", "x", "b"] : List String).headI]) ["b", "m"]).headI =
      cycleMin (["m", "q", "x", "b"] ++
        [(["m", "q", "x", "b"] : List String).headI]) ["b", "m"]) :=
  ⟨by decide, by decide,
    C5_rotation_invariant ["m", "q", "x", "b"] ["b", "m"] 2 (by decide) (by decide)⟩

theorem updA_keyfun {α : Type} (k : String) (v : α) :
    (fun p : String × α => decide (p.1 = k)) ∘
      (fun p => if p.1 = k then (k, v) else p) =
    (fun p : String × α => decide (p.1 = k)) := by
  funext p
  by_cases hp : p.1 = k
  · simp [hp]
  · simp [hp]

theorem updA_keyfun_ne {α : Type} (k k' : String) (v : α) (h : k' ≠ k) :
    (fun p : String × α => decide (p.1 = k')) ∘
      (fun p => if p.1 = k then (k, v) else p) =
    (fun p : String × α => decide (p.1 = k')) := by
  funext p
  by_cases hp : p.1 = k
  · simp [hp, Ne.symm h]
  · simp [hp]

theorem lookupA_updA_self {α : Type} (k : String) (v : α)
    (l : List (String × α)) : lookupA k (updA k v l) = some v := by
  unfold updA lookupA
  by_cases h : l.any (fun p => p.1 = k)
  · rw [if_pos h]
    rw [List.find?_map, updA_keyfun]
    have : (List.find? (fun p : String × α => decide (p.1 = k)) l).isSome := by
      rw [List.find?_isSome]
      rcases List.any_eq_true.mp h with ⟨e, he, hek⟩
      exact ⟨e, he, hek⟩
    rcases Option.isSome_iff_exists.mp this with ⟨e, he⟩
    rw [he]
    have hek : e.1 = k := by simpa using List.find?_some he
    simp [hek]
  · rw [if_neg h]
    rw [List.find?_append]
    have hnone : List.find? (fun p : String × α => decide (p.1 = k)) l = none := by
      rw [List.find?_eq_none]
      intro x hx hxk
      exact h (List.any_eq_true.mpr ⟨x, hx, hxk⟩)
    rw [hnone]
    simp [List.find?]

theorem lookupA_updA_ne {α : Type} (k k' : String) (v : α)
    (l : List (String × α)) (h : k' ≠ k) :
    lookupA k' (updA k v l) = lookupA k' l := by
  unfold updA lookupA
  by_cases ha : l.any (fun p => p.1 = k)
  · rw [if_pos ha]
    rw [List.find?_map, updA_keyfun_ne k k' v h]
    cases he : List.find? (fun p : String × α => decide (p.1 = k')) l with
    | none => rfl
    | some e =>
      have hek : e.1 = k' := by simpa using List.find?_some he
      have : ¬ e.1 = k := fun hc => h (hek ▸ hc ▸ rfl)
      simp [this]
  · rw [if_neg ha]
    rw [List.find?_append]
    have h2 : List.find? (fun p : String × α => decide (p.1 = k')) [(k, v)] = none := by
      simp [List.find?, Ne.symm h]
    rw [h2]
    cases List.find? (fun p : String × α => decide (p.1 = k')) l <;> rfl

theorem updUnion_keyfun (k m : String) (r : Finset String) :
    (fun p : String × Finset String => decide (p.1 = k)) ∘
      (fun p : String × Finset String =>
        if p.1 = m then (p.1, p.2 ∪ r) else p) =
    (fun p : String × Finset String => decide (p.1 = k)) := by
  funext p
  by_cases hp : p.1 = m
  · simp [hp]
  · simp [hp]

theorem lookupA_updUnion_self (m : String) (r : Finset String) (S : Strans) :
    lookupA m (updUnion m r S) = (lookupA m S).map (fun v => v ∪ r) := by
  unfold updUnion lookupA
  rw [List.find?_map, updUnion_keyfun]
  cases he : List.find? (fun p : String × Finset String => decide (p.1 = m)) S with
  | none => rfl
  | some e =>
    have hek : e.1 = m := by simpa using List.find?_some he
    simp [hek]

theorem lookupA_updUnion_ne (k m : String) (r : Finset String) (S : Strans)
    (h : k ≠ m) : lookupA k (updUnion m r S) = lookupA k S := by
  unfold updUnion lookupA
  rw [List.find?_map, updUnion_keyfun]
  cases he : List.find? (fun p : String × Finset String => decide (p.1 = k)) S with
  | none => rfl
  | some e =>
    have hek : e.1 = k := by simpa using List.find?_some he
    have : ¬ e.1 = m := fun hc => h (hek ▸ hc ▸ rfl)
    simp [this]

theorem updUnion_dom (k m : String) (r : Finset String) (S : Strans) :
    lookupA k (updUnion m r S) ≠ none ↔ lookupA k S ≠ none := by
  by_cases hk : k = m
  · subst hk
    rw [lookupA_updUnion_self]
    cases lookupA k S <;> simp
  · rw [lookupA_updUnion_ne k m r S hk]

theorem calcStep_facts (D : String → List String) (fuel : Nat)
    (HT : ∀ m S r S', calcT D fuel m S = some (r, S') →
      (∀ k v, lookupA k S = some v → lookupA k S' = some v) ∧
      lookupA m S' = some r ∧
      (∀ k v', lookupA k S = none → lookupA k S' = some v' → v' ⊆ r) ∧
      (∀ k v', lookupA k S = none → lookupA k S' = some v' → ∀ d ∈ D k, d ∈ v') ∧
      (∀ k, lookupA k S = none → lookupA k S' ≠ none →
        ∀ d ∈ D k, lookupA d S' ≠ none)) :
    ∀ (ds : List String) (m : String) (S S2 : Strans) (vm : Finset String),
    lookupA m S = some vm →
    calcStep (calcT D fuel) ds m S = some S2 →
    ((∀ k v, k ≠ m → lookupA k S = some v → lookupA k S2 = some v) ∧
     lookupA m S2 ≠ none ∧
     (∀ w, lookupA m S2 = some w → vm ⊆ w) ∧
     (∀ k v' w, lookupA k S = none → lookupA k S2 = some v' →
       lookupA m S2 = some w → v' ⊆ w) ∧
     (∀ k v', lookupA k S = none → lookupA k S2 = some v' → ∀ d ∈ D k, d ∈ v') ∧
     (∀ k, lookupA k S = none → lookupA k S2 ≠ none →
       ∀ d ∈ D k, lookupA d S2 ≠ none) ∧
     (∀ d ∈ ds, lookupA d S2 ≠ none)) := by
  intro ds
  induction ds with
  | nil =>
    intro m S S2 vm hm h
    simp only [calcStep] at h
    cases h
    refine ⟨fun k v _ hv => hv, by rw [hm]; simp, fun w hw => ?_,
      fun k v' w hn hs _ => absurd hs (by rw [hn]; simp),
      fun k v' hn hs => absurd hs (by rw [hn]; simp),
      fun k hn hs => absurd hs (by rw [hn]; simp),
      fun d hd => absurd hd (List.not_mem_nil d)⟩
    rw [hm] at hw
    cases hw
    exact Finset.Subset.refl _
  | cons d ds ih =>
    intro m S S2 vm hm h
    simp only [calcStep] at h
    rcases hcd : calcT D fuel d S with _ | rdSd
    · rw [hcd] at h
      cases h
    rcases rdSd with ⟨rd, Sd⟩
    rw [hcd] at h
    obtain ⟨T1, T2, T3, T4, T5⟩ := HT d S rd Sd hcd
    have hmSd : lookupA m Sd = some vm := T1 m vm hm
    have hmNext : lookupA m (updUnion m rd Sd) = some (vm ∪ rd) := by
      rw [lookupA_updUnion_self, hmSd]
      rfl
    obtain ⟨G1, Gdom, G2, G3, G4, G5, G6⟩ :=
      ih m (updUnion m rd Sd) S2 (vm ∪ rd) hmNext h
    have stepDom : ∀ k, lookupA k (updUnion m rd Sd) ≠ none →
        lookupA k S2 ≠ none := by
      intro k hk
      by_cases hkm : k = m
      · subst hkm
        exact Gdom
      · rcases Option.ne_none_iff_exists'.mp hk with ⟨u, hu⟩
        rw [G1 k u hkm hu]
        simp
    refine ⟨?_, Gdom, ?_, ?_, ?_, ?_, ?_⟩
    · intro k v hkm hv
      exact G1 k v hkm (by rw [lookupA_updUnion_ne k m rd Sd hkm]; exact T1 k v hv)
    · intro w hw
      exact subset_trans Finset.subset_union_left (G2 w hw)
    · intro k v' w hn hs hw
      have hkm : k ≠ m := by
        intro hc
        rw [hc, hm] at hn
        cases hn
      rcases hnext : lookupA k (updUnion m rd Sd) with _ | u
      · exact G3 k v' w hnext hs hw
      · rw [lookupA_updUnion_ne k m rd Sd hkm] at hnext
        have hu : u ⊆ rd := T3 k u hn hnext
        have hsame : lookupA k S2 = some u :=
          G1 k u hkm (by rw [lookupA_updUnion_ne k m rd Sd hkm]; exact hnext)
        rw [hsame] at hs
        cases hs
        exact subset_trans hu
          (subset_trans Finset.subset_union_right (G2 w hw))
    · intro k v' hn hs
      have hkm : k ≠ m := by
        intro hc
        rw [hc, hm] at hn
        cases hn
      rcases hnext : lookupA k (updUnion m rd Sd) with _ | u
      · exact G4 k v' hnext hs
      · rw [lookupA_updUnion_ne k m rd Sd hkm] at hnext
        have hu := T4 k u hn hnext
        have hsame : lookupA k S2 = some u :=
          G1 k u hkm (by rw [lookupA_updUnion_ne k m rd Sd hkm]; exact hnext)
        rw [hsame] at hs
        cases hs
        exact hu
    · intro k hn hs
      rcases hnext : lookupA k (updUnion m rd Sd) with _ | u
      · exact G5 k hnext hs
      · have hkm : k ≠ m := by
          intro hc
          rw [hc, hm] at hn
          cases hn
        rw [lookupA_updUnion_ne k m rd Sd hkm] at hnext
        intro d' hd'
        have hSd : lookupA d' Sd ≠ none :=
          T5 k hn (by rw [hnext]; simp) d' hd'
        exact stepDom d' ((updUnion_dom d' m rd Sd).mpr hSd)
    · intro d' hd'
      rcases List.mem_cons.mp hd' with rfl | hd'
      · exact stepDom d' ((updUnion_dom d' m rd Sd).mpr (by rw [T2]; simp))
      · exact G6 d' hd'

theorem calcT_facts (D : String → List String) :
    ∀ (fuel : Nat) (m : String) (S : Strans) (r : Finset String) (S' : Strans),
    calcT D fuel m S = some (r, S') →
    ((∀ k v, lookupA k S = some v → lookupA k S' = some v) ∧
     lookupA m S' = some r ∧
     (∀ k v', lookupA k S = none → lookupA k S' = some v' → v' ⊆ r) ∧
     (∀ k v', lookupA k S = none → lookupA k S' = some v' → ∀ d ∈ D k, d ∈ v') ∧
     (∀ k, lookupA k S = none → lookupA k S' ≠ none →
       ∀ d ∈ D k, lookupA d S' ≠ none)) := by
  intro fuel
  induction fuel with
  | zero =>
    intro m S r S' h
    simp [calcT] at h
  | succ fuel ih =>
    intro m S r S' h
    simp only [calcT] at h
    split at h
    · rename_i r0 hl
      simp only [Option.some.injEq, Prod.mk.injEq] at h
      obtain ⟨hr, hS⟩ := h
      subst hr
      subst hS
      refine ⟨fun k v hv => hv, hl, ?_, ?_, ?_⟩
      · intro k v' hn hs
        rw [hn] at hs
        cases hs
      · intro k v' hn hs
        rw [hn] at hs
        cases hs
      · intro k hn hns
        exact absurd hn hns
    · rename_i hl
      split at h
      · cases h
      · rename_i S2 hcs
        split at h
        · rename_i r2 hm2
          simp only [Option.some.injEq, Prod.mk.injEq] at h
          obtain ⟨hr, hS⟩ := h
          rw [hr, hS] at hm2
          rw [hS] at hcs
          obtain ⟨F1, Fdom, F2, F3, F4, F5, F6⟩ :=
            calcStep_facts D fuel ih (D m) m (updA m (D m).toFinset S) S'
              (D m).toFinset (lookupA_updA_self m (D m).toFinset S) hcs
          have hne : ∀ k, lookupA k S ≠ none → k ≠ m := by
            intro k hk hc
            rw [hc, hl] at hk
            exact hk rfl
          refine ⟨?_, hm2, ?_, ?_, ?_⟩
          · intro k v hv
            have hkm : k ≠ m := hne k (by rw [hv]; simp)
            exact F1 k v hkm
              (by rw [lookupA_updA_ne m k (D m).toFinset S hkm]; exact hv)
          · intro k v' hn hs
            by_cases hkm : k = m
            · subst hkm
              rw [hm2] at hs
              cases hs
              exact Finset.Subset.refl _
            · exact F3 k v' r
                (by rw [lookupA_updA_ne m k (D m).toFinset S hkm]; exact hn)
                hs hm2
          · intro k v' hn hs
            by_cases hkm : k = m
            · subst hkm
              rw [hm2] at hs
              cases hs
              intro d hd
              exact F2 r hm2 (List.mem_toFinset.mpr hd)
            · exact F4 k v'
                (by rw [lookupA_updA_ne m k (D m).toFinset S hkm]; exact hn) hs
          · intro k hn hns d hd
            by_cases hkm : k = m
            · subst hkm
              exact F6 d hd
            · exact F5 k
                (by rw [lookupA_updA_ne m k (D m).toFinset S hkm]; exact hn)
                hns d hd
        · cases h

theorem calcStep_total (D : String → List String) (U : Finset String)
    (fuel : Nat)
    (HTot : ∀ m S, m ∈ U →
      (U.filter (fun x => lookupA x S = none)).card < fuel →
      calcT D fuel m S ≠ none) :
    ∀ (ds : List String) (m : String) (S : Strans),
    (∀ d ∈ ds, d ∈ U) →
    (U.filter (fun x => lookupA x S = none)).card < fuel →
    calcStep (calcT D fuel) ds m S ≠ none := by
  intro ds
  induction ds with
  | nil =>
    intro m S _ _
    simp [calcStep]
  | cons d ds ih =>
    intro m S hds hmeas
    simp only [calcStep]
    rcases hcd : calcT D fuel d S with _ | rdSd
    · exact absurd hcd (HTot d S (hds d (List.mem_cons_self d ds)) hmeas)
    · rcases rdSd with ⟨rd, Sd⟩
      obtain ⟨T1, _, _, _, _⟩ := calcT_facts D fuel d S rd Sd hcd
      have hsub : U.filter (fun x => lookupA x (updUnion m rd Sd) = none) ⊆
          U.filter (fun x => lookupA x S = none) := by
        intro x hx
        rw [Finset.mem_filter] at hx ⊢
        refine ⟨hx.1, ?_⟩
        rcases hxS : lookupA x S with _ | v
        · rfl
        · have hxSd : lookupA x Sd = some v := T1 x v hxS
          have : lookupA x (updUnion m rd Sd) ≠ none :=
            (updUnion_dom x m rd Sd).mpr (by rw [hxSd]; simp)
          exact absurd hx.2 this
      exact ih m (updUnion m rd Sd) (fun x hx => hds x (List.mem_cons_of_mem d hx))
        (Nat.lt_of_le_of_lt (Finset.card_le_card hsub) hmeas)

theorem calcT_total (D : String → List String) (U : Finset String)
    (hU : ∀ a ∈ U, ∀ b ∈ D a, b ∈ U) :
    ∀ (fuel : Nat) (m : String) (S : Strans), m ∈ U →
    (U.filter (fun x => lookupA x S = none)).card < fuel →
    calcT D fuel m S ≠ none := by
  intro fuel
  induction fuel with
  | zero =>
    intro m S _ hmeas
    exact absurd hmeas (Nat.not_lt_zero _)
  | succ fuel ih =>
    intro m S hm hmeas
    simp only [calcT]
    split
    · simp
    · rename_i hl
      have hseed : lookupA m (updA m (D m).toFinset S) = some (D m).toFinset :=
        lookupA_updA_self m (D m).toFinset S
      have hsub : U.filter
            (fun x => lookupA x (updA m (D m).toFinset S) = none) ⊆
          U.filter (fun x => lookupA x S = none) := by
        intro x hx
        rw [Finset.mem_filter] at hx ⊢
        refine ⟨hx.1, ?_⟩
        by_cases hxm : x = m
        · subst hxm
          rw [hseed] at hx
          exact absurd hx.2 (by simp)
        · rw [← lookupA_updA_ne m x (D m).toFinset S hxm]
          exact hx.2
      have hss : U.filter
            (fun x => lookupA x (updA m (D m).toFinset S) = none) ⊂
          U.filter (fun x => lookupA x S = none) := by
        refine (Finset.ssubset_iff_of_subset hsub).mpr ⟨m, ?_, ?_⟩
        · exact Finset.mem_filter.mpr ⟨hm, hl⟩
        · intro hc
          rw [Finset.mem_filter, hseed] at hc
          exact absurd hc.2 (by simp)
      have hmeas1 : (U.filter
            (fun x => lookupA x (updA m (D m).toFinset S) = none)).card < fuel :=
        Nat.lt_of_lt_of_le (Finset.card_lt_card hss) (Nat.lt_succ_iff.mp hmeas)
      have hstep := calcStep_total D U fuel ih (D m) m
        (updA m (D m).toFinset S) (fun d hd => hU m hm d hd) hmeas1
      split
      · rename_i hcs
        exact absurd hcs hstep
      · rename_i S2 hcs
        obtain ⟨_, Fdom, _⟩ :=
          calcStep_facts D fuel (calcT_facts D fuel) (D m) m
            (updA m (D m).toFinset S) S2 (D m).toFinset hseed hcs
        split
        · simp
        · rename_i hm2
          exact absurd hm2 Fdom

theorem calcT_dom_closed (D : String → List String) (fuel : Nat) (m : String)
    (r : Finset String) (S' : Strans)
    (h : calcT D fuel m [] = some (r, S')) :
    ∀ y, Relation.ReflTransGen (Imports D) m y → lookupA y S' ≠ none := by
  obtain ⟨_, T2, _, _, T5⟩ := calcT_facts D fuel m [] r S' h
  intro y hy
  induction hy with
  | refl => rw [T2]; simp
  | tail _ hbc ihb => exact T5 _ rfl ihb _ hbc

theorem calcT_reaches (D : String → List String) (fuel : Nat) (m : String)
    (r : Finset String) (S' : Strans)
    (h : calcT D fuel m [] = some (r, S')) :
    ∀ x, ReachTC D m x → x ∈ r := by
  obtain ⟨_, _, T3, T4, _⟩ := calcT_facts D fuel m [] r S' h
  intro x hx
  rcases Relation.TransGen.tail'_iff.mp hx with ⟨y, hmy, hyx⟩
  have hy : lookupA y S' ≠ none := calcT_dom_closed D fuel m r S' h y hmy
  rcases Option.ne_none_iff_exists'.mp hy with ⟨vy, hvy⟩
  exact T3 y vy rfl hvy (T4 y vy rfl hvy x hyx)

/-- C3: on any finite import graph (a universe `U` of modules closed under
the direct-import map `D`), `_calculate_transitive_imports` terminates —
fuel exceeding the number of modules never runs out, even on cyclic
graphs, because each entry is seeded before the recursive calls — and the
returned set contains every module reachable from the argument via one or
more top-level import edges. -/
theorem C3_terminates_and_complete (D : String → List String)
    (U : Finset String) (m : String) (fuel : Nat)
    (hU : ∀ a ∈ U, ∀ b ∈ D a, b ∈ U) (hm : m ∈ U) (hfuel : U.card < fuel) :
    (∃ r S', calcT D fuel m [] = some (r, S')) ∧
    (∀ r S', calcT D fuel m [] = some (r, S') →
      ∀ x, ReachTC D m x → x ∈ r) := by
  constructor
  · have hne := calcT_total D U hU fuel m [] hm (by simpa [lookupA] using hfuel)
    rcases hres : calcT D fuel m [] with _ | rs
    · exact absurd hres hne
    · exact ⟨rs.1, rs.2, rfl⟩
  · intro r S' h x hx
    exact calcT_reaches D fuel m r S' h x hx

/-- C3 witness: the cyclic two-module graph a → b → a with universe
`{a, b}` and fuel 3. -/
theorem C3_terminates_and_complete_witness :
    ((∀ a ∈ Uab, ∀ b ∈ Dab a, b ∈ Uab) ∧ "a" ∈ Uab ∧ Uab.card < 3) ∧
    ((∃ r S', calcT Dab 3 "a" [] = some (r, S')) ∧
     (∀ r S', calcT Dab 3 "a" [] = some (r, S') →
       ∀ x, ReachTC Dab "a" x → x ∈ r)) :=
  ⟨⟨by decide, by decide, by decide⟩,
   C3_terminates_and_complete Dab Uab "a" 3 (by decide) (by decide) (by decide)⟩

theorem lookupA_map_absorb (m : String) (nt : Finset String) (k : String)
    (S : Strans) :
    lookupA k (S.map (fun p => if m ∈ p.2 then (p.1, p.2 ∪ nt) else p)) =
    (lookupA k S).map (fun v => if m ∈ v then v ∪ nt else v) := by
  unfold lookupA
  rw [List.find?_map]
  have hpred : (fun p : String × Finset String => decide (p.1 = k)) ∘
      (fun p => if m ∈ p.2 then (p.1, p.2 ∪ nt) else p) =
      (fun p : String × Finset String => decide (p.1 = k)) := by
    funext p
    by_cases hp : m ∈ p.2 <;> simp [hp]
  rw [hpred]
  cases he : List.find? (fun p : String × Finset String => decide (p.1 = k)) S with
  | none => rfl
  | some e =>
    by_cases hm : m ∈ e.2 <;> simp [hm]

/-- C1 counterexample: with the edge-free graph, `_calculate_transitive_imports`
caches the entry `a ↦ ∅`, which satisfies the invariant; `_add_edge(a, b)`
then records the direct edge a → b but, since no cached entry contains `a`,
leaves `a`'s cached entry at `∅`, which no longer contains `a`'s
direct imports `[b]`. -/
theorem C1_counterexample :
    calcT Dempty 1 "a" [] = some (∅, [("a", ∅)]) ∧
    transInv Dempty ⟨[], [("a", ∅)]⟩ ∧
    add_edge Dempty 2 "a" "b" ⟨[], [("a", ∅)]⟩ =
      some ⟨[("a", ["b"])], [("a", ∅), ("b", ∅)]⟩ ∧
    ¬ transInv Dempty ⟨[("a", ["b"])], [("a", ∅), ("b", ∅)]⟩ := by
  refine ⟨by decide, ?_, by decide, ?_⟩
  · unfold transInv calcInv
    decide
  · unfold transInv calcInv
    decide

/-- C1 (amended): `_calculate_transitive_imports` preserves the invariant
"every cached entry contains its module's direct imports" and its result
contains the argument's direct imports; `_add_edge(m, t)` makes `t` a
direct import of `m` and preserves the invariant for every cached entry
whose key differs from `m` or whose set contains `m` (the absorbed ones) —
but, as the counterexample shows, not necessarily for `m`'s own entry. -/
theorem C1_amended (D : String → List String) :
    (∀ fuel m S r S',
      (∀ k v, lookupA k S = some v → ∀ x ∈ D k, x ∈ v) →
      calcT D fuel m S = some (r, S') →
      ((∀ k v, lookupA k S' = some v → ∀ x ∈ D k, x ∈ v) ∧
       ∀ x ∈ D m, x ∈ r)) ∧
    (∀ fuel m t st st',
      (∀ k v, lookupA k st.trans = some v → ∀ x ∈ getTop D st k, x ∈ v) →
      add_edge D fuel m t st = some st' →
      (t ∈ getTop D st' m ∧
       (∀ k v, lookupA k st'.trans = some v → (k ≠ m ∨ m ∈ v) →
         ∀ x ∈ getTop D st' k, x ∈ v))) := by
  constructor
  · intro fuel m S r S' hinv h
    obtain ⟨T1, T2, T3, T4, T5⟩ := calcT_facts D fuel m S r S' h
    have hS' : ∀ k v, lookupA k S' = some v → ∀ x ∈ D k, x ∈ v := by
      intro k v hv
      rcases hk : lookupA k S with _ | v0
      · exact T4 k v hk hv
      · have h1 := T1 k v0 hk
        rw [h1] at hv
        cases hv
        exact hinv _ _ hk
    exact ⟨hS', fun x hx => hS' m r T2 x hx⟩
  · intro fuel m t st st' hinv h
    simp only [add_edge] at h
    set nd := if t ∈ getTop D st m then getTop D st m else getTop D st m ++ [t]
      with hnd
    split at h
    · cases h
    · rename_i r2 S2 hct
      simp only [Option.some.injEq] at h
      subst h
      obtain ⟨T1, T2, T3, T4, T5⟩ :=
        calcT_facts (getTop D ⟨updA m nd st.dOv, st.trans⟩) fuel t st.trans
          r2 S2 hct
      have hTm : getTop D ⟨updA m nd st.dOv, st.trans⟩ m = nd := by
        simp [getTop, lookupA_updA_self]
      have hTne : ∀ k, k ≠ m →
          getTop D ⟨updA m nd st.dOv, st.trans⟩ k = getTop D st k := by
        intro k hk
        simp [getTop, lookupA_updA_ne m k nd st.dOv hk]
      have htnd : t ∈ nd := by
        rw [hnd]
        by_cases ht : t ∈ getTop D st m
        · simp [ht]
        · simp [ht]
      constructor
      · show t ∈ (lookupA m (updA m nd st.dOv)).getD (D m)
        rw [lookupA_updA_self]
        exact htnd
      · intro k v hkv hor x hx
        have hx' : x ∈ getTop D ⟨updA m nd st.dOv, st.trans⟩ k := hx
        have hkv' : (lookupA k S2).map
            (fun v => if m ∈ v then v ∪ insert t r2 else v) = some v := by
          rw [← lookupA_map_absorb]
          exact hkv
        rcases Option.map_eq_some'.mp hkv' with ⟨v0, hv0, hgv⟩
        have hvsub : v0 ⊆ v := by
          rw [← hgv]
          by_cases hm0 : m ∈ v0
          · rw [if_pos hm0]
            exact Finset.subset_union_left
          · rw [if_neg hm0]
        by_cases hkm : k = m
        · rw [hkm] at hx' hv0
          rw [hTm] at hx'
          rcases hkS : lookupA m st.trans with _ | w
          · exact hvsub (T4 m v0 hkS hv0 x (by rw [hTm]; exact hx'))
          · have h1 := T1 m w hkS
            have hveq : v0 = w := by
              rw [h1] at hv0
              exact (Option.some.inj hv0).symm
            rw [hveq] at hvsub hgv
            rcases hor with hne | hmv
            · exact absurd hkm hne
            · by_cases hmw : m ∈ w
              · have hv : v = w ∪ insert t r2 := by rw [← hgv]; simp [hmw]
                rw [hv]
                rw [hnd] at hx'
                by_cases ht : t ∈ getTop D st m
                · rw [if_pos ht] at hx'
                  exact Finset.mem_union_left _ (hinv m w hkS x hx')
                · rw [if_neg ht] at hx'
                  rcases List.mem_append.mp hx' with hxc | hxt
                  · exact Finset.mem_union_left _ (hinv m w hkS x hxc)
                  · have hxt' : x = t := by simpa using hxt
                    subst hxt'
                    exact Finset.mem_union_right _ (Finset.mem_insert_self _ _)
              · have hv : v = w := by rw [← hgv]; simp [hmw]
                rw [hv] at hmv
                exact absurd hmv hmw
        · rw [hTne k hkm] at hx'
          rcases hkS : lookupA k st.trans with _ | w
          · exact hvsub (T4 k v0 hkS hv0 x (by rw [hTne k hkm]; exact hx'))
          · have h1 := T1 k w hkS
            have hveq : v0 = w := by
              rw [h1] at hv0
              exact (Option.some.inj hv0).symm
            rw [hveq] at hvsub
            exact hvsub (hinv k w hkS x hx')

/-- C1 amended witness: the edge-free graph; part one at the cache freshly
computed for `a`, part two at a state whose only entry `a ↦ {a}` contains
`a` and therefore absorbs the promotion `a → b`. -/
theorem C1_amended_witness :
    (calcT Dempty 1 "a" [] = some (∅, [("a", ∅)]) ∧
     add_edge Dempty 2 "a" "b" ⟨[], [("a", {"a"})]⟩ =
       some ⟨[("a", ["b"])], [("a", {"a", "b"}), ("b", ∅)]⟩) ∧
    ((∀ k v, lookupA k ([("a", ∅)] : Strans) = some v → ∀ x ∈ Dempty k, x ∈ v) ∧
      ∀ x ∈ Dempty "a", x ∈ (∅ : Finset String)) ∧
    ("b" ∈ getTop Dempty
        ⟨[("a", ["b"])], [("a", {"a", "b"}), ("b", ∅)]⟩ "a" ∧
     (∀ k v, lookupA k ([("a", {"a", "b"}), ("b", ∅)] : Strans) = some v →
       (k ≠ "a" ∨ "a" ∈ v) →
       ∀ x ∈ getTop Dempty
           ⟨[("a", ["b"])], [("a", {"a", "b"}), ("b", ∅)]⟩ k,
         x ∈ v)) := by
  refine ⟨⟨by decide, by decide⟩, ?_, ?_⟩
  · exact (C1_amended Dempty).1 1 "a" [] ∅ [("a", ∅)]
      (fun k v hv => nomatch hv) (by decide)
  · exact (C1_amended Dempty).2 2 "a" "b" ⟨[], [("a", {"a"})]⟩
      ⟨[("a", ["b"])], [("a", {"a", "b"}), ("b", ∅)]⟩
      (by intro k v _ x hx; exact absurd hx (List.not_mem_nil x)) (by decide)

theorem strEmpty_true_iff (s : String) : strEmpty s = true ↔ s = "" := by
  unfold strEmpty
  rw [List.isEmpty_iff]
  constructor
  · intro h
    exact strToListInj s "" h
  · intro h
    subst h
    rfl

theorem strAppend_eq_empty (a b : String) (h : a ++ b = "") :
    a = "" ∧ b = "" := by
  have h2 : a.toList ++ b.toList = ([] : List Char) := congrArg String.toList h
  rcases List.append_eq_nil.mp h2 with ⟨ha, hb⟩
  exact ⟨strToListInj a "" ha, strToListInj b "" hb⟩

theorem machineToks_cons_skip (t : Tok) (ts : List Tok)
    (h : t.text = "(" ∨ t.text = ")" ∨ t.isNewline = true) :
    machineToks (t :: ts) = machineToks ts := by
  simp only [machineToks, List.filter_cons]
  have hc : (!(t.text = "(" || t.text = ")" || t.isNewline)) = false := by
    rcases h with h | h | h <;> simp [h]
  rw [hc]
  simp

theorem machineToks_cons_keep (t : Tok) (ts : List Tok)
    (h : ¬(t.text = "(" ∨ t.text = ")" ∨ t.isNewline = true)) :
    machineToks (t :: ts) = t :: machineToks ts := by
  push_neg at h
  simp only [machineToks, List.filter_cons]
  have hc : (!(t.text = "(" || t.text = ")" || t.isNewline)) = true := by
    simp [h.1, h.2.1, h.2.2]
  rw [hc]
  simp [machineToks]

theorem nonemptyButLast_tail (t : Tok) (mt : List Tok)
    (h : nonemptyButLast (t :: mt)) : nonemptyButLast mt := by
  intro u hu
  apply h
  rcases mt with _ | ⟨a, as⟩
  · simp at hu
  · rw [List.dropLast_cons₂]
    exact List.mem_cons_of_mem t hu

theorem stateLink_insideUpd (t : Tok) (st : PSt) (mt : List Tok) :
    stateLink (insideUpd t st) mt ↔ stateLink st mt := by
  unfold insideUpd
  split
  · exact Iff.rfl
  · split <;> exact Iff.rfl

theorem startStep_link (t : Tok) (s : PSt) (mt : List Tok)
    (hf : s.field = PField.start)
    (hhead : ∀ y ∈ mt.head?, noBadPair t y) :
    stateLink (startStep t s) mt := by
  unfold startStep
  split
  · rename_i hfrom
    refine ⟨?_, ?_, ?_⟩
    · intro _ t₀ ht₀ hcon
      exact (hhead t₀ ht₀).1 ⟨hfrom.1, hcon⟩
    · intro h0
      cases h0
    · intro h0
      cases h0
  · split
    · rename_i himp
      refine ⟨?_, ?_⟩
      · intro _ t₀ ht₀
        exact ⟨fun hc => (hhead t₀ ht₀).2 ⟨himp.1, Or.inl hc⟩,
               fun hc => (hhead t₀ ht₀).2 ⟨himp.1, Or.inr hc⟩⟩
      · intro h0
        cases h0
    · simp [stateLink, hf]

theorem endThenStart_ok (filename : String) (t : Tok) (s : PSt)
    (mt : List Tok) (hip : s.importPart ≠ none)
    (hhead : ∀ y ∈ mt.head?, noBadPair t y) :
    ∃ st', endThenStart filename t s = .ok st' ∧ stateLink st' mt := by
  rcases h : s.importPart with _ | ip
  · exact absurd h hip
  · unfold endThenStart
    rw [h]
    exact ⟨_, rfl, startStep_link t _ mt rfl hhead⟩

theorem dispatchTok_ok (filename : String) (t : Tok) (s : PSt)
    (mt : List Tok)
    (hlink : stateLink s (t :: mt))
    (hhead : ∀ y ∈ mt.head?, noBadPair t y)
    (hlast : mt ≠ [] → t.text ≠ "") :
    ∃ st', dispatchTok filename t s = .ok st' ∧ stateLink st' mt := by
  rcases hf : s.field with _ | _ | _ | _
  case start =>
    simp only [dispatchTok, hf]
    exact ⟨_, rfl, startStep_link t s mt hf hhead⟩
  case fromF =>
    simp only [stateLink, hf] at hlink
    obtain ⟨hl1, _, hl3⟩ := hlink
    simp only [dispatchTok, hf]
    by_cases hti : t.text = "import"
    · rcases hfp : s.fromPart with _ | s0
      · exfalso
        rw [hfp] at hl1
        exact hl1 (Or.inl rfl) t rfl hti
      · have hs0 : ¬ strEmpty s0 = true := by
          intro he
          rw [strEmpty_true_iff] at he
          subst he
          rw [hfp] at hl1
          exact hl1 (Or.inr rfl) t rfl hti
        have hstep : fromStep t s = .ok { s with field := PField.importF } := by
          unfold fromStep
          rw [if_pos hti, hfp]
          simp [hs0]
        refine ⟨_, hstep, ?_, ?_⟩
        · intro _ t₀ ht₀
          exact ⟨fun hc => (hhead t₀ ht₀).2 ⟨hti, Or.inl hc⟩,
                 fun hc => (hhead t₀ ht₀).2 ⟨hti, Or.inr hc⟩⟩
        · intro h0
          exact absurd h0 hl3
    · have hstep : fromStep t s =
          .ok { s with fromPart := some (s.fromPart.getD "" ++ t.text) } := by
        unfold fromStep
        rw [if_neg hti]
      refine ⟨_, hstep, ?_⟩
      simp only [stateLink, hf]
      refine ⟨?_, ?_, hl3⟩
      · intro hpf t₀ ht₀
        exfalso
        rcases hpf with hc | hc
        · cases hc
        · have hx : s.fromPart.getD "" ++ t.text = "" := Option.some.inj hc
          have htt : t.text = "" := (strAppend_eq_empty _ _ hx).2
          rcases hmt : mt with _ | ⟨a, as⟩
          · rw [hmt] at ht₀
            simp at ht₀
          · exact hlast (by rw [hmt]; simp) htt
      · intro h0
        have hx : s.fromPart.getD "" ++ t.text = "" := Option.some.inj h0
        have htt : t.text = "" := (strAppend_eq_empty _ _ hx).2
        rcases hmt : mt with _ | ⟨a, as⟩
        · rfl
        · exact absurd htt (hlast (by rw [hmt]; simp))
  case importF =>
    simp only [stateLink, hf] at hlink
    obtain ⟨hl1, hl2⟩ := hlink
    have hl2' : s.importPart ≠ some "" := by
      intro h0
      exact List.cons_ne_nil t mt (hl2 h0)
    simp only [dispatchTok, hf]
    by_cases htas : t.text = "as"
    · rcases hip : s.importPart with _ | s0
      · exact absurd htas ((hl1 hip t rfl).1)
      · have hs0 : ¬ strEmpty s0 = true := by
          intro he
          rw [strEmpty_true_iff] at he
          subst he
          exact hl2' hip
        have hstep : importStep filename t s =
            .ok { s with field := PField.asF } := by
          unfold importStep
          rw [if_pos htas, hip]
          simp [hs0]
        refine ⟨_, hstep, ?_⟩
        show s.importPart ≠ none
        rw [hip]
        simp
    · by_cases htdot : t.text = "."
      · rcases hip : s.importPart with _ | s0
        · exact absurd htdot ((hl1 hip t rfl).2)
        · have hstep : importStep filename t s =
              .ok { s with importPart := some (s0 ++ ".") } := by
            unfold importStep
            rw [if_neg htas, if_pos htdot, hip]
          refine ⟨_, hstep, ?_⟩
          simp only [stateLink, hf]
          refine ⟨?_, ?_⟩
          · intro h0
            cases h0
          · intro h0
            have hx : s0 ++ "." = "" := Option.some.inj h0
            exact absurd (strAppend_eq_empty _ _ hx).2 (by decide)
      · by_cases hcond : s.importPart = none ∨
            strEnds (s.importPart.getD "") "." = true
        · have hstep : importStep filename t s =
              .ok { s with
                importPart := some (s.importPart.getD "" ++ t.text) } := by
            unfold importStep
            rw [if_neg htas, if_neg htdot, if_pos hcond]
          refine ⟨_, hstep, ?_⟩
          simp only [stateLink, hf]
          refine ⟨?_, ?_⟩
          · intro h0
            cases h0
          · intro h0
            have hx : s.importPart.getD "" ++ t.text = "" :=
              Option.some.inj h0
            have htt : t.text = "" := (strAppend_eq_empty _ _ hx).2
            rcases hmt : mt with _ | ⟨a, as⟩
            · rfl
            · exact absurd htt (hlast (by rw [hmt]; simp))
        · push_neg at hcond
          rcases hip : s.importPart with _ | s0
          · exact absurd hip hcond.1
          · have hs0 : ¬ strEmpty s0 = true := by
              intro he
              rw [strEmpty_true_iff] at he
              subst he
              exact hl2' hip
            have hstep : importStep filename t s = endThenStart filename t s := by
              unfold importStep
              rw [if_neg htas, if_neg htdot, if_neg (by push_neg; exact hcond),
                hip]
              simp [hs0]
            rw [hstep]
            exact endThenStart_ok filename t s mt (by rw [hip]; simp) hhead
  case asF =>
    simp only [stateLink, hf] at hlink
    simp only [dispatchTok, hf]
    exact ⟨_, rfl, hlink⟩
  case endF =>
    simp only [stateLink, hf] at hlink
    simp only [dispatchTok, hf]
    exact endThenStart_ok filename t s mt hlink hhead

theorem parseAux_ok (filename : String) :
    ∀ (toks : List Tok) (st : PSt), parserInv st toks →
    ∃ ils, parseAux filename st toks = .ok ils := by
  intro toks
  induction toks with
  | nil =>
    intro st _
    exact ⟨st.acc, rfl⟩
  | cons t ts ih =>
    intro st hinv
    obtain ⟨hch, hne, hlink⟩ := hinv
    by_cases hskip : t.text = "(" ∨ t.text = ")" ∨ t.isNewline = true
    · have hmt : machineToks (t :: ts) = machineToks ts :=
        machineToks_cons_skip t ts hskip
      have hstep : stepTok filename t st = .ok st := by
        unfold stepTok
        rw [if_pos hskip]
      simp only [parseAux]
      rw [hstep]
      exact ih st ⟨hmt ▸ hch, hmt ▸ hne, hmt ▸ hlink⟩
    · have hmt : machineToks (t :: ts) = t :: machineToks ts :=
        machineToks_cons_keep t ts hskip
      rw [hmt] at hch hne hlink
      have hch' : List.Chain' noBadPair (machineToks ts) :=
        (List.chain'_cons'.mp hch).2
      have hhead : ∀ y ∈ (machineToks ts).head?, noBadPair t y :=
        (List.chain'_cons'.mp hch).1
      have hne' : nonemptyButLast (machineToks ts) :=
        nonemptyButLast_tail t _ hne
      have hlast : machineToks ts ≠ [] → t.text ≠ "" := by
        intro hmt' hcon
        apply hne t _ hcon
        rcases hmtts : machineToks ts with _ | ⟨a, as⟩
        · exact absurd hmtts hmt'
        · rw [List.dropLast_cons₂]
          exact List.mem_cons_self _ _
      have hlink' : stateLink (insideUpd t st) (t :: machineToks ts) :=
        (stateLink_insideUpd t st _).mpr hlink
      obtain ⟨st', hst', hlk⟩ :=
        dispatchTok_ok filename t (insideUpd t st) (machineToks ts)
          hlink' hhead hlast
      have hstep : stepTok filename t st = .ok st' := by
        unfold stepTok
        rw [if_neg hskip]
        exact hst'
      simp only [parseAux]
      rw [hstep]
      exact ih st' ⟨hch', hne', hlk⟩

/-- C2 counterexample: on the malformed statement `from import x` the
parser hits `assert il_dict['from_part']` and raises instead of
degrading: `_get_import_lines` is not total on arbitrary token streams. -/
theorem C2_counterexample :
    get_import_lines "f" fromImportXToks = .error () := rfl

/-- C2 (amended): on every token stream whose machine tokens (parens and
NEWLINEs elided) never place `import` directly after `from` or `as`/`.`
directly after `import`, and have empty text at most in the final token,
`_get_import_lines` returns without raising. -/
theorem C2_no_raise_on_good_streams (filename : String) (toks : List Tok)
    (h : goodStream toks) :
    ∃ ils, get_import_lines filename toks = .ok ils := by
  obtain ⟨h1, h2⟩ := h
  exact parseAux_ok filename toks initPSt ⟨h1, h2, trivial⟩

/-- C2 witness: the well-formed stream of `from . import frozen_model`. -/
theorem C2_no_raise_witness :
    goodStream frozenModelToks ∧
    ∃ ils, get_import_lines "f" frozenModelToks = .ok ils := by
  have hg : goodStream frozenModelToks := by
    constructor
    · show List.Chain' noBadPair
        [mkTok "from" 1 0 "from . import frozen_model\n",
         mkTok "." 1 5 "from . import frozen_model\n",
         mkTok "import" 1 7 "from . import frozen_model\n",
         mkTok "frozen_model" 1 14 "from . import frozen_model\n",
         mkTok "" 2 0 ""]
      simp only [List.chain'_cons, List.chain'_singleton, and_true]
      unfold noBadPair
      decide
    · unfold nonemptyButLast
      decide
  exact ⟨hg, C2_no_raise_on_good_streams "f" frozenModelToks hg⟩

theorem insertSorted_ne_nil (x : List String) (l : List (List String)) :
    insertSorted x l ≠ [] := by
  cases l with
  | nil => simp [insertSorted]
  | cons y ys =>
    unfold insertSorted
    split <;> simp

theorem foldl_insertSorted_ne_nil :
    ∀ (l : List (List String)) (acc : List (List String)),
    acc ≠ [] ∨ l ≠ [] →
    List.foldl (fun acc c => insertSorted c acc) acc l ≠ [] := by
  intro l
  induction l with
  | nil =>
    intro acc h
    rcases h with h | h
    · exact h
    · exact absurd rfl h
  | cons c l' ih =>
    intro acc _
    simp only [List.foldl_cons]
    exact ih (insertSorted c acc) (Or.inl (insertSorted_ne_nil c acc))

theorem sortCycles_ne_nil (cs : List (List String)) (h : cs ≠ []) :
    sortCycles cs ≠ [] :=
  foldl_insertSorted_ne_nil cs [] (Or.inr h)

theorem cycleDiags_no_promote (ilines : String → Option (List ImportLine))
    (m2f : List (String × String)) :
    ∀ (cs : List (List String)) (f : String) (ln : Nat) (m t : String),
    CDiag.promote f ln m t ∉ (cycleDiags ilines m2f cs).1 := by
  intro cs
  induction cs with
  | nil =>
    intro f ln m t
    simp [cycleDiags]
  | cons cyc rest ih =>
    intro f ln m t
    simp only [cycleDiags]
    split
    · exact ih f ln m t
    · rename_i f0 hl
      split
      · simp
      · rename_i ils hi
        split
        · simp
        · rename_i il hf2
          intro hc
          rcases List.mem_cons.mp hc with hc | hc
          · cases hc
          · exact ih f ln m t hc

/-- C4: the late-import optimizer is gated on an all-clear from the cycle
enumerator — when it reports any cycle, `lint_circular_imports` emits no
"make this a top-level import" recommendation — and when it does run, a
late edge module → target whose target transitively imports the module is
skipped without a recommendation. -/
theorem C4_optimizer_gated (fuel : Nat)
    (ilines : String → Option (List ImportLine)) (contents : String → String)
    (files : List String) :
    (∀ cycs, find_all_cycles fuel (get_top_level_imports ilines)
        ((((files.filter (fun f => strEnds f ".py")).foldl
          (fun acc f => updA (moduleOfFile f) f acc) []).map (·.1))) =
        some cycs →
      cycs ≠ [] →
      ∀ f ln m t, CDiag.promote f ln m t ∉
        (lint_circular_imports fuel ilines contents files).1) ∧
    (∀ (D : String → List String) (f module : String) (st : ISt)
       (t : String) (rest : List String) (r : Finset String) (S' : Strans),
      t ∉ LATE_IMPORT_BLACKLIST →
      calcT (getTop D st) fuel t st.trans = some (r, S') →
      module ∈ r →
      lateCands D fuel ilines contents f module st (t :: rest) =
        lateCands D fuel ilines contents f module ⟨st.dOv, S'⟩ rest) := by
  constructor
  · intro cycs hfind hne f ln m t
    have hempty : (sortCycles cycs).isEmpty = false := by
      cases h : (sortCycles cycs).isEmpty with
      | false => rfl
      | true => exact absurd (List.isEmpty_iff.mp h) (sortCycles_ne_nil cycs hne)
    simp only [lint_circular_imports]
    rw [hfind]
    simp only [hempty, Bool.false_eq_true, if_false]
    exact cycleDiags_no_promote ilines _ (sortCycles cycs) f ln m t
  · intro D f module st t rest r S' hblack hcalc hmem
    simp only [lateCands, hcalc]
    rw [if_neg hblack, if_pos hmem]

/-- C4 witness: the mutually-importing pair a.py/b.py for the gate, and
the guard graph where module b imports a at top level, so promoting the
late edge a → b is skipped. -/
theorem C4_optimizer_gated_witness :
    (find_all_cycles 32 (get_top_level_imports ilinesCycAB)
        (((([kaRootJoin "a.py", kaRootJoin "b.py"].filter
          (fun f => strEnds f ".py")).foldl
          (fun acc f => updA (moduleOfFile f) f acc) []).map (·.1))) =
        some [["a", "b", "a"]] ∧
     (∀ f ln m t, CDiag.promote f ln m t ∉
        (lint_circular_imports 32 ilinesCycAB (fun _ => "")
          [kaRootJoin "a.py", kaRootJoin "b.py"]).1)) ∧
    ("b" ∉ LATE_IMPORT_BLACKLIST ∧
     calcT (getTop DguardBA ⟨[], []⟩) 2 "b" ([] : Strans) =
       some ({"a"}, [("b", {"a"}), ("a", ∅)]) ∧
     "a" ∈ ({"a"} : Finset String) ∧
     lateCands DguardBA 2 ilinesCycAB (fun _ => "") "f" "a" ⟨[], []⟩ ["b"] =
       lateCands DguardBA 2 ilinesCycAB (fun _ => "") "f" "a"
         ⟨[], [("b", {"a"}), ("a", ∅)]⟩ []) := by
  refine ⟨⟨by decide, ?_⟩, by decide, by decide, by decide, ?_⟩
  · exact fun f ln m t =>
      (C4_optimizer_gated 32 ilinesCycAB (fun _ => "")
        [kaRootJoin "a.py", kaRootJoin "b.py"]).1
        [["a", "b", "a"]] (by decide) (by decide) f ln m t
  · exact (C4_optimizer_gated 2 ilinesCycAB (fun _ => "")
        [kaRootJoin "a.py", kaRootJoin "b.py"]).2
      DguardBA "f" "a" ⟨[], []⟩ "b" [] {"a"} [("b", {"a"}), ("a", ∅)]
      (by decide) (by decide) (by decide)

theorem assocFind_none_keys (rt : String) (l : List (String × TrieV))
    (h : assocFind rt l = none) : ∀ q ∈ l, q.1 ≠ rt := by
  intro q hq hc
  unfold assocFind at h
  have hf := Option.map_eq_none'.mp h
  have := List.find?_eq_none.mp hf q hq
  simp [hc] at this

theorem assocFind_keys_none (rt : String) (l : List (String × TrieV))
    (h : ∀ q ∈ l, q.1 ≠ rt) : assocFind rt l = none := by
  unfold assocFind
  rw [Option.map_eq_none', List.find?_eq_none]
  intro q hq
  simp [h q hq]

theorem assocFind_erase_self (t : String) (l : List (String × TrieV)) :
    assocFind t (assocErase t l) = none := by
  apply assocFind_keys_none
  intro q hq
  have := List.of_mem_filter hq
  simpa using this

theorem assocFind_erase_none (k t : String) (l : List (String × TrieV))
    (h : assocFind k l = none) : assocFind k (assocErase t l) = none := by
  apply assocFind_keys_none
  intro q hq
  exact assocFind_none_keys k l h q (List.mem_of_mem_filter hq)

theorem assocFind_upd_ne (k t : String) (v : TrieV)
    (l : List (String × TrieV)) (h : k ≠ t) :
    assocFind k (assocUpd t v l) = assocFind k l :=
  lookupA_updA_ne t k v l h

theorem innerWalk_keys (toks : List Tok) (rt : String) :
    ∀ (fuel i : Nat) (cur : List (String × TrieV)) (parts : List String),
    assocFind rt cur = none →
    assocFind rt (innerWalk toks fuel i cur parts).2.1 = none := by
  intro fuel
  cases fuel with
  | zero =>
    intro i cur parts h
    exact h
  | succ fuel =>
    intro i cur parts h
    rcases hf : assocFind ((tokAt toks i).text) cur with _ | v
    · simp only [innerWalk, hf]
      exact h
    · have hne : (tokAt toks i).text ≠ rt := by
        intro hc
        rw [hc, h] at hf
        cases hf
      rcases v with cs | n | _
      · simp only [innerWalk, hf]
        by_cases hcond : i + 2 ≥ toks.length ∨ (tokAt toks (i + 1)).text ≠ "."
        · rw [if_pos hcond]
          exact h
        · rw [if_neg hcond]
          show assocFind rt (assocUpd ((tokAt toks i).text)
            (TrieV.node (innerWalk toks fuel (i + 2) cs
              (parts ++ [(tokAt toks i).text])).2.1) cur) = none
          rw [assocFind_upd_ne rt _ _ cur (Ne.symm hne)]
          exact h
      · simp only [innerWalk, hf]
        show assocFind rt (assocUpd ((tokAt toks i).text) TrieV.used cur) = none
        rw [assocFind_upd_ne rt _ _ cur (Ne.symm hne)]
        exact h
      · simp only [innerWalk, hf]
        show assocFind rt (assocUpd ((tokAt toks i).text) TrieV.used cur) = none
        rw [assocFind_upd_ne rt _ _ cur (Ne.symm hne)]
        exact h

theorem innerWalk_head (toks : List Tok) :
    ∀ (fuel i : Nat) (cur : List (String × TrieV)) (parts : List String)
      (d : UDiag),
    (innerWalk toks fuel i cur parts).1 = some d →
    d.path.head? = parts.head? ∨
      (parts = [] ∧ d.path.head? = some ((tokAt toks i).text)) := by
  intro fuel
  induction fuel with
  | zero =>
    intro i cur parts d hd
    simp [innerWalk] at hd
  | succ fuel ih =>
    intro i cur parts d hd
    rcases hf : assocFind ((tokAt toks i).text) cur with _ | v
    · simp only [innerWalk, hf] at hd
      cases hd
      rcases parts with _ | ⟨a, as⟩
      · right
        exact ⟨rfl, by simp [UDiag.path]⟩
      · left
        simp [UDiag.path]
    · rcases v with cs | n | _
      · simp only [innerWalk, hf] at hd
        by_cases hcond : i + 2 ≥ toks.length ∨ (tokAt toks (i + 1)).text ≠ "."
        · rw [if_pos hcond] at hd
          cases hd
          left
          simp [UDiag.path]
        · rw [if_neg hcond] at hd
          have hd' : (innerWalk toks fuel (i + 2) cs
              (parts ++ [(tokAt toks i).text])).1 = some d := hd
          rcases ih (i + 2) cs (parts ++ [(tokAt toks i).text]) d hd' with hh | ⟨he, _⟩
          · rcases parts with _ | ⟨a, as⟩
            · right
              refine ⟨rfl, ?_⟩
              rw [hh]
              simp
            · left
              rw [hh]
              simp
          · exact absurd he (by simp)
      · simp only [innerWalk, hf] at hd
        cases hd
      · simp only [innerWalk, hf] at hd
        cases hd

theorem walkFrom_no_root (toks : List Tok) (rt : String) :
    ∀ (fuel i : Nat) (trie : List (String × TrieV)),
    assocFind rt trie = none →
    (∀ d ∈ (walkFrom toks fuel i trie).1, d.path.head? ≠ some rt) ∧
    assocFind rt (walkFrom toks fuel i trie).2 = none := by
  intro fuel
  induction fuel with
  | zero =>
    intro i trie h
    exact ⟨fun d hd => by simp [walkFrom] at hd, h⟩
  | succ fuel ih =>
    intro i trie h
    simp only [walkFrom]
    by_cases hlen : i < toks.length
    · rw [if_pos hlen]
      by_cases hprev : i > 0 ∧ (tokAt toks (i - 1)).text ∈ [".", "import", "from"]
      · rw [if_pos hprev]
        exact ih (i + 1) trie h
      · rw [if_neg hprev]
        by_cases hroot : (assocFind ((tokAt toks i).text) trie).isNone = true
        · rw [if_pos hroot]
          exact ih (i + 1) trie h
        · rw [if_neg hroot]
          by_cases hnext : i + 1 < toks.length ∧ (tokAt toks (i + 1)).text ≠ "."
          · rw [if_pos hnext]
            exact ih (i + 1) _ (assocFind_erase_none rt _ trie h)
          · rw [if_neg hnext]
            have hne : (tokAt toks i).text ≠ rt := by
              intro hc
              apply hroot
              rw [hc, h]
              rfl
            obtain ⟨ihd, iht⟩ := ih
              (i + (innerWalk toks (toks.length + 1) i trie []).2.2 + 1)
              ((innerWalk toks (toks.length + 1) i trie []).2.1)
              (innerWalk_keys toks rt (toks.length + 1) i trie [] h)
            refine ⟨?_, iht⟩
            intro d hd
            rcases List.mem_append.mp hd with h1 | h2
            · have hsome : (innerWalk toks (toks.length + 1) i trie []).1 =
                  some d := by
                rcases ho : (innerWalk toks (toks.length + 1) i trie []).1
                  with _ | d'
                · rw [ho] at h1
                  simp at h1
                · rw [ho] at h1
                  simp at h1
                  rw [h1]
              rcases innerWalk_head toks (toks.length + 1) i trie [] d hsome
                with hh | ⟨_, hh⟩
              · rw [hh]
                simp
              · rw [hh]
                exact fun hc => hne (Option.some.inj hc)
            · exact ihd d h2
    · rw [if_neg hlen]
      exact ⟨fun d hd => by simp at hd, h⟩

theorem unusedGo_no_root (lines : List String) (rt : String)
    (rec' : List (String × TrieV) → List String → List (List String × Nat))
    (hrec : ∀ cs parts, (parts = [] → ∀ q ∈ cs, q.1 ≠ rt) →
      parts.head? ≠ some rt →
      ∀ u ∈ rec' cs parts, u.1.head? ≠ some rt) :
    ∀ (root : List (String × TrieV)) (parts : List String),
    (parts = [] → ∀ q ∈ root, q.1 ≠ rt) →
    parts.head? ≠ some rt →
    ∀ u ∈ unusedGo rec' lines root parts, u.1.head? ≠ some rt := by
  intro root
  induction root with
  | nil =>
    intro parts _ _ u hu
    simp [unusedGo] at hu
  | cons q rest ih =>
    intro parts hq hp u hu
    rcases q with ⟨p, sub⟩
    have hpnew : (parts ++ [p]).head? ≠ some rt := by
      rcases parts with _ | ⟨a, as⟩
      · intro hc
        exact hq rfl (p, sub) (List.mem_cons_self _ _) (Option.some.inj hc)
      · simpa using hp
    simp only [unusedGo] at hu
    rcases List.mem_append.mp hu with h1 | h2
    · rcases sub with cs | n | _
      · exact hrec cs (parts ++ [p]) (fun hc => absurd hc (by simp)) hpnew u h1
      · have h1' : u ∈ (if strHasSub (lines.getD (n - 1) "") "@UnusedImport" = true
            then ([] : List (List String × Nat)) else [(parts ++ [p], n)]) := h1
        rcases hif : strHasSub (lines.getD (n - 1) "") "@UnusedImport" with _ | _
        · rw [hif] at h1'
          simp at h1'
          rw [h1']
          exact hpnew
        · rw [hif] at h1'
          simp at h1'
      · simp at h1
    · exact ih parts (fun h0 q' hq' => hq h0 q' (List.mem_cons_of_mem _ hq'))
        hp u h2

theorem find_unused_no_root (lines : List String) (rt : String) :
    ∀ (fuel : Nat) (root : List (String × TrieV)) (parts : List String),
    (parts = [] → ∀ q ∈ root, q.1 ≠ rt) →
    parts.head? ≠ some rt →
    ∀ u ∈ find_unused_imports lines fuel root parts, u.1.head? ≠ some rt := by
  intro fuel
  induction fuel with
  | zero =>
    intro root parts _ _ u hu
    simp [find_unused_imports] at hu
  | succ fuel ih =>
    intro root parts hq hp u hu
    simp only [find_unused_imports] at hu
    exact unusedGo_no_root lines rt (find_unused_imports lines fuel) ih
      root parts hq hp u hu

/-- C10: when the walk of `lint_unused_and_missing_imports` meets a trie
root `rt` that is not preceded by `.`/`import`/`from` and is followed by a
non-`.` token (it looks redefined as a plain variable), it deletes the
whole root, and from that point on no walk diagnostic (missing import or
non-module reference) and no unused-import report concerns any dotted
path under `rt` — even for imports under `rt` that were never used. -/
theorem C10_redefined_root_suppressed (toks : List Tok) (rt : String)
    (fuel i : Nat) (trie : List (String × TrieV))
    (hlen : i < toks.length)
    (hprev : ¬(i > 0 ∧ (tokAt toks (i - 1)).text ∈ [".", "import", "from"]))
    (hrt : (tokAt toks i).text = rt)
    (hin : ¬((assocFind rt trie).isNone = true))
    (hnext : i + 1 < toks.length ∧ (tokAt toks (i + 1)).text ≠ ".") :
    walkFrom toks (fuel + 1) i trie =
      walkFrom toks fuel (i + 1) (assocErase rt trie) ∧
    (∀ d ∈ (walkFrom toks (fuel + 1) i trie).1, d.path.head? ≠ some rt) ∧
    assocFind rt (walkFrom toks (fuel + 1) i trie).2 = none ∧
    (∀ (lines : List String) (dfuel : Nat) u,
      u ∈ find_unused_imports lines dfuel (walkFrom toks (fuel + 1) i trie).2 [] →
      u.1.head? ≠ some rt) := by
  have hstep : walkFrom toks (fuel + 1) i trie =
      walkFrom toks fuel (i + 1) (assocErase rt trie) := by
    simp only [walkFrom]
    rw [hrt, if_pos hlen, if_neg hprev, if_neg hin, if_pos hnext]
  obtain ⟨h1, h2⟩ := walkFrom_no_root toks rt fuel (i + 1) (assocErase rt trie)
    (assocFind_erase_self rt trie)
  refine ⟨hstep, ?_, ?_, ?_⟩
  · rw [hstep]
    exact h1
  · rw [hstep]
    exact h2
  · intro lines dfuel u hu
    rw [hstep] at hu
    refine find_unused_no_root lines rt dfuel _ [] ?_ (by simp) u hu
    intro _
    apply assocFind_none_keys
    rw [← hstep]  -- restate over the original walk, matching h2 after hstep
    rw [hstep]
    exact h2

/-- C10 witness: the trie of `import foo.bar` and the stream of
`"import foo.bar\nfoo = 1\n"`, where token 5 redefines `foo` at column 0
of line 2. -/
theorem C10_redefined_root_witness :
    (5 < fooRedefToks.length ∧
     ¬(5 > 0 ∧ (tokAt fooRedefToks 4).text ∈ [".", "import", "from"]) ∧
     (tokAt fooRedefToks 5).text = "foo" ∧
     ¬((assocFind "foo" fooBarTrie).isNone = true) ∧
     (5 + 1 < fooRedefToks.length ∧ (tokAt fooRedefToks (5 + 1)).text ≠ ".")) ∧
    (walkFrom fooRedefToks (10 + 1) 5 fooBarTrie =
       walkFrom fooRedefToks 10 (5 + 1) (assocErase "foo" fooBarTrie) ∧
     (∀ d ∈ (walkFrom fooRedefToks (10 + 1) 5 fooBarTrie).1,
       d.path.head? ≠ some "foo") ∧
     assocFind "foo" (walkFrom fooRedefToks (10 + 1) 5 fooBarTrie).2 = none ∧
     (∀ (lines : List String) (dfuel : Nat) u,
       u ∈ find_unused_imports lines dfuel
         (walkFrom fooRedefToks (10 + 1) 5 fooBarTrie).2 [] →
       u.1.head? ≠ some "foo")) :=
  ⟨⟨by decide, by decide, by decide, by decide, by decide, by decide⟩,
   C10_redefined_root_suppressed fooRedefToks "foo" 10 5 fooBarTrie
     (by decide) (by decide) (by decide) (by decide) ⟨by decide, by decide⟩⟩
